import Mathlib

/-!
A verification development for the folder-synchronization program in
`Main.py`.  The program's core is `sync_folders(source, replica, log_file)`:
it lists both directories, copies or updates every source entry into the
replica (recursing into directories that exist on both sides, deep-copying
directories missing from the replica, copying files whose MD5 digests
differ), and then removes every replica entry whose name is absent from the
source listing, logging each mutation.

The embedding models a directory tree as a finite inductive value `FS`
(files carry byte content, directories carry a name-keyed association list
of children, mirroring a real directory listing).  `sync` mirrors
`sync_folders` line by line: it returns the replica tree after the pass, the
list of logged operations, the trace of filesystem writes that were
performed (each with its target path), and the first error, if any.  I/O
failures of the underlying primitives are modelled by a set of faulted
paths: a primitive touching a faulted path raises, exactly where the Python
call would.  The MD5 digest is modelled as an injective digest computed by
the same 4096-byte chunked streaming loop as `calculate_md5`.
-/

namespace FolderSync

/-- File contents: a finite byte string. -/
abbrev Bytes := List Nat

/-- A filesystem path, as the list of its name components
(`os.path.join(p, item)` appends one component). -/
abbrev FsPath := List String

/-- A directory tree: a regular file with its byte content, or a directory
with its listing (names paired with the entries they denote), exactly the
data `os.listdir` plus recursive descent observes. -/
inductive FS where
  | file (content : Bytes)
  | dir (entries : List (String × FS))

/-- Splitting a byte stream into the chunks produced by
`iter(lambda: f.read(4096), b"")`: full `4096`-byte blocks followed by a
final shorter block.  `cur` is the reversed current block, `cap` the
remaining capacity of the current block. -/
def chunksAux : Bytes → Bytes → Nat → List Bytes
  | [], cur, _ => if cur.isEmpty then [] else [cur.reverse]
  | b :: rest, cur, 0 => cur.reverse :: chunksAux rest [b] 4095
  | b :: rest, cur, n + 1 => chunksAux rest (b :: cur) n

/-- The chunks `calculate_md5` feeds to `hash_md5.update`, in order. -/
def readChunks (content : Bytes) : List Bytes :=
  chunksAux content [] 4096

/-- `calculate_md5`: stream the file in 4096-byte chunks and fold them into
a digest.  The digest of the idealized (collision-free) hash is modelled as
the concatenation of the streamed chunks, so two digests are equal exactly
when the hashes of equal byte strings are compared. -/
def calculate_md5 (content : Bytes) : Bytes :=
  (readChunks content).foldl (fun h c => h ++ c) []

/-- Names of a directory listing, in listing order (`os.listdir`). -/
def keys (es : List (String × FS)) : List String :=
  es.map Prod.fst

/-- Look up the entry a name denotes in a listing (the filesystem object at
`os.path.join(dir, name)`); `none` when `os.path.exists` is false. -/
def findEntry : List (String × FS) → String → Option FS
  | [], _ => none
  | (m, e) :: rest, n => if m = n then some e else findEntry rest n

/-- Overwrite the entry a name denotes (what an in-place copy does). -/
def updateEntry : List (String × FS) → String → FS → List (String × FS)
  | [], _, _ => []
  | (m, e) :: rest, n, v =>
    if m = n then (m, v) :: rest else (m, e) :: updateEntry rest n v

/-- Remove the entry a name denotes (`os.remove` / `shutil.rmtree`). -/
def eraseEntry : List (String × FS) → String → List (String × FS)
  | [], _ => []
  | (m, e) :: rest, n =>
    if m = n then rest else (m, e) :: eraseEntry rest n

/-- No name occurs twice (true of every real directory listing). -/
def nodupKeys : List String → Bool
  | [] => true
  | n :: rest => !(decide (n ∈ rest)) && nodupKeys rest

mutual

/-- Well-formedness of a tree: every directory listing has pairwise
distinct names, recursively. -/
def FS.wf : FS → Bool
  | .file _ => true
  | .dir es => nodupKeys (keys es) && wfList es

/-- All entries of a listing are well-formed. -/
def wfList : List (String × FS) → Bool
  | [] => true
  | (_, e) :: rest => e.wf && wfList rest

end

/-- Every name of `fs` also names an entry of `es`. -/
def keysSub (fs es : List (String × FS)) : Bool :=
  fs.all fun q => (findEntry es q.1).isSome

mutual

/-- Extensional equality of two trees: same entry names, same kind per
name, and equal byte content per file, at every level (the convergence
criterion of the specification). -/
def FS.same : FS → FS → Bool
  | .file c, .file d => decide (c = d)
  | .dir es, .dir fs => sameAll es fs && keysSub fs es
  | _, _ => false

/-- Every entry of `es` has a `same` counterpart of the same name in `fs`. -/
def sameAll : List (String × FS) → List (String × FS) → Bool
  | [], _ => true
  | (n, e) :: rest, fs =>
    (match findEntry fs n with
     | some g => FS.same e g
     | none => false) && sameAll rest fs

end

mutual

/-- Depth of a tree: the number of nested directory levels. -/
def FS.depth : FS → Nat
  | .file _ => 0
  | .dir es => depthList es + 1

/-- Maximal depth over the entries of a listing. -/
def depthList : List (String × FS) → Nat
  | [] => 0
  | (_, e) :: rest => max e.depth (depthList rest)

end

/-- `os.path.isdir`. -/
def FS.isDir : FS → Bool
  | .file _ => false
  | .dir _ => true

/-- One logged operation (`log_operation` messages), carrying the replica
path the message names. -/
inductive Op where
  | dirCreated (p : FsPath)
  | fileCopied (p : FsPath)
  | dirRemoved (p : FsPath)
  | fileRemoved (p : FsPath)
deriving DecidableEq

/-- The path an operation's log message names. -/
def Op.path : Op → FsPath
  | .dirCreated p => p
  | .fileCopied p => p
  | .dirRemoved p => p
  | .fileRemoved p => p

/-- One filesystem write performed by the pass, with its source (for
copies) and target paths. -/
inductive Write where
  | wcopytree (src dst : FsPath)
  | wcopy2 (src dst : FsPath)
  | wrmtree (p : FsPath)
  | wremove (p : FsPath)
deriving DecidableEq

/-- The path a write mutates. -/
def Write.target : Write → FsPath
  | .wcopytree _ d => d
  | .wcopy2 _ d => d
  | .wrmtree p => p
  | .wremove p => p

/-- Errors a pass can raise.  `readError` covers listing, opening, and
hashing failures (`NotADirectoryError` from `os.listdir` on a file and
`IsADirectoryError` from `open` on a directory included); `writeError`
covers copy and removal failures.  `typeMismatch` is the error kind the
specification proposes for same-name kind conflicts; the code never raises
it. -/
inductive SyncError where
  | readError (p : FsPath)
  | writeError (p : FsPath)
  | typeMismatch (p : FsPath)
deriving DecidableEq

/-- Outcome of one `sync_folders` call: the replica tree after it returns
or raises, the logged operations, the writes performed, and the raised
error (`none` when it completed). -/
structure SyncOut where
  rep : FS
  log : List Op
  writes : List Write
  err : Option SyncError

/-- Outcome of a partially processed loop over directory entries. -/
structure ItemsOut where
  entries : List (String × FS)
  log : List Op
  writes : List Write
  err : Option SyncError

/-- The second loop of `sync_folders`: for each `item` of the replica
listing captured at the start of the pass (`rNames`), if `item` is not in
the captured source listing (`sNames`), remove it from the current replica
entries — `shutil.rmtree` plus one `Directory removed` log line if
`os.path.isdir` holds, else `os.remove` plus one `File removed` line. -/
def prune (faults : List FsPath) (rNames sNames : List String)
    (entries : List (String × FS)) (rp : FsPath) : ItemsOut :=
  match rNames with
  | [] => ⟨entries, [], [], none⟩
  | item :: rest =>
    if item ∈ sNames then prune faults rest sNames entries rp
    else
      let rpath := rp ++ [item]
      match findEntry entries item with
      | some (.dir _) =>
        if rpath ∈ faults then ⟨entries, [], [], some (.writeError rpath)⟩
        else
          let r := prune faults rest sNames (eraseEntry entries item) rp
          ⟨r.entries, .dirRemoved rpath :: r.log, .wrmtree rpath :: r.writes, r.err⟩
      | some (.file _) =>
        if rpath ∈ faults then ⟨entries, [], [], some (.writeError rpath)⟩
        else
          let r := prune faults rest sNames (eraseEntry entries item) rp
          ⟨r.entries, .fileRemoved rpath :: r.log, .wremove rpath :: r.writes, r.err⟩
      | none => ⟨entries, [], [], some (.writeError rpath)⟩

mutual

/-- `sync_folders(source, replica, log_file)`.  `src` and `rep` are the
trees at paths `sp` and `rp`; `faults` is the set of paths whose primitive
accesses raise.  `os.listdir` on each side first (raising on a faulted or
non-directory path), then the copy/update loop over the source listing,
then the pruning loop over the replica listing captured up front. -/
def sync (faults : List FsPath) (src rep : FS) (sp rp : FsPath) : SyncOut :=
  if sp ∈ faults then ⟨rep, [], [], some (.readError sp)⟩
  else
    match src with
    | .file _ => ⟨rep, [], [], some (.readError sp)⟩
    | .dir ses =>
      if rp ∈ faults then ⟨rep, [], [], some (.readError rp)⟩
      else
        match rep with
        | .file d => ⟨.file d, [], [], some (.readError rp)⟩
        | .dir res =>
          let r := syncItems faults ses res sp rp
          match r.err with
          | some e => ⟨.dir r.entries, r.log, r.writes, some e⟩
          | none =>
            let p := prune faults (keys res) (keys ses) r.entries rp
            ⟨.dir p.entries, r.log ++ p.log, r.writes ++ p.writes, p.err⟩

/-- The first loop of `sync_folders`, over the source listing, with `res`
the current replica entries.  Per `item`: a directory absent from the
replica is deep-copied (`shutil.copytree`, one `Directory created` line); a
directory present in the replica triggers the recursive call; a file absent
from the replica, or whose MD5 digest differs from the replica file's, is
copied (`shutil.copy2`, one `File copied/updated` line); an identical file
is skipped with no write and no log line.  The first raised error aborts
the loop. -/
def syncItems (faults : List FsPath) (items res : List (String × FS))
    (sp rp : FsPath) : ItemsOut :=
  match items with
  | [] => ⟨res, [], [], none⟩
  | (name, sEntry) :: rest =>
    let spath := sp ++ [name]
    let rpath := rp ++ [name]
    match sEntry with
    | .dir _ =>
      match findEntry res name with
      | none =>
        if spath ∈ faults then ⟨res, [], [], some (.readError spath)⟩
        else if rpath ∈ faults then ⟨res, [], [], some (.writeError rpath)⟩
        else
          let r := syncItems faults rest (res ++ [(name, sEntry)]) sp rp
          ⟨r.entries, .dirCreated rpath :: r.log,
            .wcopytree spath rpath :: r.writes, r.err⟩
      | some rEntry =>
        let s := sync faults sEntry rEntry spath rpath
        match s.err with
        | some e => ⟨updateEntry res name s.rep, s.log, s.writes, some e⟩
        | none =>
          let r := syncItems faults rest (updateEntry res name s.rep) sp rp
          ⟨r.entries, s.log ++ r.log, s.writes ++ r.writes, r.err⟩
    | .file c =>
      match findEntry res name with
      | none =>
        if spath ∈ faults then ⟨res, [], [], some (.readError spath)⟩
        else if rpath ∈ faults then ⟨res, [], [], some (.writeError rpath)⟩
        else
          let r := syncItems faults rest (res ++ [(name, .file c)]) sp rp
          ⟨r.entries, .fileCopied rpath :: r.log,
            .wcopy2 spath rpath :: r.writes, r.err⟩
      | some rEntry =>
        if spath ∈ faults then ⟨res, [], [], some (.readError spath)⟩
        else
          match rEntry with
          | .dir _ => ⟨res, [], [], some (.readError rpath)⟩
          | .file d =>
            if rpath ∈ faults then ⟨res, [], [], some (.readError rpath)⟩
            else if calculate_md5 c = calculate_md5 d then
              syncItems faults rest res sp rp
            else
              let r := syncItems faults rest (updateEntry res name (.file c)) sp rp
              ⟨r.entries, .fileCopied rpath :: r.log,
                .wcopy2 spath rpath :: r.writes, r.err⟩

end

/-- The entry loop of `sync`, with the recursive call abstracted as `f`:
used by the fuel-indexed variant below. -/
def itemsGo (f : FS → FS → FsPath → FsPath → Option SyncOut)
    (faults : List FsPath) : List (String × FS) → List (String × FS) →
    FsPath → FsPath → Option ItemsOut
  | [], res, _, _ => some ⟨res, [], [], none⟩
  | (name, sEntry) :: rest, res, sp, rp =>
    let spath := sp ++ [name]
    let rpath := rp ++ [name]
    match sEntry with
    | .dir _ =>
      match findEntry res name with
      | none =>
        if spath ∈ faults then some ⟨res, [], [], some (.readError spath)⟩
        else if rpath ∈ faults then some ⟨res, [], [], some (.writeError rpath)⟩
        else
          match itemsGo f faults rest (res ++ [(name, sEntry)]) sp rp with
          | none => none
          | some r =>
            some ⟨r.entries, .dirCreated rpath :: r.log,
              .wcopytree spath rpath :: r.writes, r.err⟩
      | some rEntry =>
        match f sEntry rEntry spath rpath with
        | none => none
        | some s =>
          match s.err with
          | some e => some ⟨updateEntry res name s.rep, s.log, s.writes, some e⟩
          | none =>
            match itemsGo f faults rest (updateEntry res name s.rep) sp rp with
            | none => none
            | some r =>
              some ⟨r.entries, s.log ++ r.log, s.writes ++ r.writes, r.err⟩
    | .file c =>
      match findEntry res name with
      | none =>
        if spath ∈ faults then some ⟨res, [], [], some (.readError spath)⟩
        else if rpath ∈ faults then some ⟨res, [], [], some (.writeError rpath)⟩
        else
          match itemsGo f faults rest (res ++ [(name, .file c)]) sp rp with
          | none => none
          | some r =>
            some ⟨r.entries, .fileCopied rpath :: r.log,
              .wcopy2 spath rpath :: r.writes, r.err⟩
      | some rEntry =>
        if spath ∈ faults then some ⟨res, [], [], some (.readError spath)⟩
        else
          match rEntry with
          | .dir _ => some ⟨res, [], [], some (.readError rpath)⟩
          | .file d =>
            if rpath ∈ faults then some ⟨res, [], [], some (.readError rpath)⟩
            else if calculate_md5 c = calculate_md5 d then
              itemsGo f faults rest res sp rp
            else
              match itemsGo f faults rest (updateEntry res name (.file c)) sp rp with
              | none => none
              | some r =>
                some ⟨r.entries, .fileCopied rpath :: r.log,
                  .wcopy2 spath rpath :: r.writes, r.err⟩

/-- `sync` with an explicit recursion budget: each recursive
`sync_folders` self-call spends one unit of fuel, and `none` means the
budget was exhausted.  Used to state that the recursion of the program
terminates within `depth` of the source tree. -/
def syncFuel : Nat → List FsPath → FS → FS → FsPath → FsPath → Option SyncOut
  | 0, _, _, _, _, _ => none
  | fuel + 1, faults, src, rep, sp, rp =>
    if sp ∈ faults then some ⟨rep, [], [], some (.readError sp)⟩
    else
      match src with
      | .file _ => some ⟨rep, [], [], some (.readError sp)⟩
      | .dir ses =>
        if rp ∈ faults then some ⟨rep, [], [], some (.readError rp)⟩
        else
          match rep with
          | .file d => some ⟨.file d, [], [], some (.readError rp)⟩
          | .dir res =>
            match itemsGo (syncFuel fuel faults) faults ses res sp rp with
            | none => none
            | some r =>
              match r.err with
              | some e => some ⟨.dir r.entries, r.log, r.writes, some e⟩
              | none =>
                let p := prune faults (keys res) (keys ses) r.entries rp
                some ⟨.dir p.entries, r.log ++ p.log, r.writes ++ p.writes, p.err⟩

/-! ### Helper lemmas about listings -/

theorem keys_cons (m : String) (e : FS) (rest : List (String × FS)) :
    keys ((m, e) :: rest) = m :: keys rest := rfl

theorem keys_append (es fs : List (String × FS)) :
    keys (es ++ fs) = keys es ++ keys fs := by
  simp [keys]

theorem findEntry_eq_none {es : List (String × FS)} {n : String} :
    findEntry es n = none ↔ n ∉ keys es := by
  induction es with
  | nil => simp [findEntry, keys]
  | cons p rest ih =>
    obtain ⟨m, e⟩ := p
    by_cases h : m = n
    · subst h
      simp [findEntry, keys]
    · simp [findEntry, keys, h, ih, Ne.symm h]

theorem findEntry_isSome {es : List (String × FS)} {n : String} :
    (∃ v, findEntry es n = some v) ↔ n ∈ keys es := by
  rcases h : findEntry es n with _ | v
  · simp [findEntry_eq_none.mp h]
  · have : n ∈ keys es := by
      by_contra hn
      rw [findEntry_eq_none.mpr hn] at h
      exact Option.noConfusion h
    simp [this]

theorem findEntry_mem {es : List (String × FS)} {n : String} {v : FS}
    (h : findEntry es n = some v) : (n, v) ∈ es := by
  induction es with
  | nil => simp [findEntry] at h
  | cons p rest ih =>
    obtain ⟨m, e⟩ := p
    by_cases hm : m = n
    · simp [findEntry, hm] at h
      simp [hm, h]
    · simp [findEntry, hm] at h
      exact List.mem_cons_of_mem _ (ih h)

theorem nodupKeys_cons {n : String} {l : List String} :
    nodupKeys (n :: l) = true ↔ n ∉ l ∧ nodupKeys l = true := by
  simp [nodupKeys]

theorem findEntry_of_mem {es : List (String × FS)} {n : String} {v : FS}
    (hnd : nodupKeys (keys es) = true) (h : (n, v) ∈ es) :
    findEntry es n = some v := by
  induction es with
  | nil => simp at h
  | cons p rest ih =>
    obtain ⟨m, e⟩ := p
    rw [keys_cons, nodupKeys_cons] at hnd
    rcases List.mem_cons.mp h with h1 | h1
    · obtain ⟨hm, hv⟩ := Prod.mk.injEq .. ▸ h1.symm
      simp [findEntry, hm, hv]
    · have hne : m ≠ n := by
        intro he
        exact hnd.1 (he ▸ List.mem_map_of_mem Prod.fst h1)
      simp [findEntry, hne, ih hnd.2 h1]

theorem keys_updateEntry (es : List (String × FS)) (n : String) (v : FS) :
    keys (updateEntry es n v) = keys es := by
  induction es with
  | nil => rfl
  | cons p rest ih =>
    obtain ⟨m, e⟩ := p
    by_cases h : m = n
    · simp [updateEntry, h, keys]
    · simp only [updateEntry, if_neg h, keys, List.map_cons]
      simpa [keys] using ih

theorem findEntry_updateEntry_self {es : List (String × FS)} {n : String}
    {w : FS} (v : FS) (h : findEntry es n = some w) :
    findEntry (updateEntry es n v) n = some v := by
  induction es with
  | nil => simp [findEntry] at h
  | cons p rest ih =>
    obtain ⟨m, e⟩ := p
    by_cases hm : m = n
    · simp [updateEntry, findEntry, hm]
    · simp [findEntry, hm] at h
      simp [updateEntry, findEntry, hm, ih h]

theorem findEntry_updateEntry_ne {es : List (String × FS)} {n m : String}
    (v : FS) (h : m ≠ n) :
    findEntry (updateEntry es n v) m = findEntry es m := by
  induction es with
  | nil => rfl
  | cons p rest ih =>
    obtain ⟨m', e⟩ := p
    by_cases hm : m' = n
    · subst hm
      simp [updateEntry, findEntry, Ne.symm h]
    · simp only [updateEntry, if_neg hm]
      by_cases hm2 : m' = m <;> simp [findEntry, hm2, ih]

theorem updateEntry_eq_self {es : List (String × FS)} {n : String} {v : FS}
    (h : findEntry es n = some v) : updateEntry es n v = es := by
  induction es with
  | nil => rfl
  | cons p rest ih =>
    obtain ⟨m, e⟩ := p
    by_cases hm : m = n
    · simp [findEntry, hm] at h
      simp [updateEntry, hm, h]
    · simp [findEntry, hm] at h
      simp [updateEntry, hm, ih h]

theorem mem_updateEntry {es : List (String × FS)} {n : String} {v : FS}
    {p : String × FS} (h : p ∈ updateEntry es n v) : p ∈ es ∨ p = (n, v) := by
  induction es with
  | nil => simp [updateEntry] at h
  | cons q rest ih =>
    obtain ⟨m, e⟩ := q
    by_cases hm : m = n
    · simp [updateEntry, hm] at h
      rcases h with h | h
      · exact Or.inr (by simp [h])
      · exact Or.inl (List.mem_cons_of_mem _ h)
    · simp [updateEntry, hm] at h
      rcases h with h | h
      · exact Or.inl (by simp [h])
      · rcases ih h with h1 | h1
        · exact Or.inl (List.mem_cons_of_mem _ h1)
        · exact Or.inr h1

theorem findEntry_append_left {es fs : List (String × FS)} {n : String}
    {v : FS} (h : findEntry es n = some v) :
    findEntry (es ++ fs) n = some v := by
  induction es with
  | nil => simp [findEntry] at h
  | cons p rest ih =>
    obtain ⟨m, e⟩ := p
    by_cases hm : m = n
    · simp [findEntry, hm] at h ⊢
      exact h
    · simp [findEntry, hm] at h ⊢
      exact ih h

theorem findEntry_append_right {es fs : List (String × FS)} {n : String}
    (h : findEntry es n = none) :
    findEntry (es ++ fs) n = findEntry fs n := by
  induction es with
  | nil => rfl
  | cons p rest ih =>
    obtain ⟨m, e⟩ := p
    by_cases hm : m = n
    · simp [findEntry, hm] at h
    · simp [findEntry, hm] at h ⊢
      exact ih h

theorem findEntry_eraseEntry_ne {es : List (String × FS)} {n m : String}
    (h : m ≠ n) : findEntry (eraseEntry es n) m = findEntry es m := by
  induction es with
  | nil => rfl
  | cons p rest ih =>
    obtain ⟨m', e⟩ := p
    by_cases hm : m' = n
    · subst hm
      simp [eraseEntry, findEntry, Ne.symm h]
    · simp only [eraseEntry, if_neg hm]
      by_cases hm2 : m' = m <;> simp [findEntry, hm2, ih]

theorem findEntry_eraseEntry_self {es : List (String × FS)} {n : String}
    (hnd : nodupKeys (keys es) = true) :
    findEntry (eraseEntry es n) n = none := by
  induction es with
  | nil => rfl
  | cons p rest ih =>
    obtain ⟨m, e⟩ := p
    rw [keys_cons, nodupKeys_cons] at hnd
    by_cases hm : m = n
    · subst hm
      simp only [eraseEntry, if_pos rfl]
      exact findEntry_eq_none.mpr hnd.1
    · simp [eraseEntry, findEntry, hm, ih hnd.2]

theorem mem_eraseEntry {es : List (String × FS)} {n : String}
    {p : String × FS} (h : p ∈ eraseEntry es n) : p ∈ es := by
  induction es with
  | nil => simp [eraseEntry] at h
  | cons q rest ih =>
    obtain ⟨m, e⟩ := q
    by_cases hm : m = n
    · simp [eraseEntry, hm] at h
      exact List.mem_cons_of_mem _ h
    · simp [eraseEntry, hm] at h
      rcases h with h | h
      · exact h ▸ List.mem_cons_self _ _
      · exact List.mem_cons_of_mem _ (ih h)

theorem keys_eraseEntry_subset {es : List (String × FS)} {n m : String}
    (h : m ∈ keys (eraseEntry es n)) : m ∈ keys es := by
  rcases List.mem_map.mp h with ⟨p, hp, he⟩
  exact he ▸ List.mem_map_of_mem Prod.fst (mem_eraseEntry hp)

theorem nodupKeys_eraseEntry {es : List (String × FS)} (n : String)
    (hnd : nodupKeys (keys es) = true) :
    nodupKeys (keys (eraseEntry es n)) = true := by
  induction es with
  | nil => rfl
  | cons p rest ih =>
    obtain ⟨m, e⟩ := p
    rw [keys_cons, nodupKeys_cons] at hnd
    by_cases hm : m = n
    · simpa [eraseEntry, hm] using hnd.2
    · rw [show eraseEntry ((m, e) :: rest) n = (m, e) :: eraseEntry rest n by
        simp [eraseEntry, hm]]
      rw [keys_cons, nodupKeys_cons]
      exact ⟨fun hc => hnd.1 (keys_eraseEntry_subset hc), ih hnd.2⟩

theorem nodupKeys_append_one {l : List String} {n : String}
    (h : nodupKeys l = true) (hn : n ∉ l) : nodupKeys (l ++ [n]) = true := by
  induction l with
  | nil => simp [nodupKeys]
  | cons m rest ih =>
    rw [nodupKeys_cons] at h
    rw [List.cons_append, nodupKeys_cons]
    refine ⟨?_, ih h.2 fun hc => hn (List.mem_cons_of_mem _ hc)⟩
    intro hc
    rcases List.mem_append.mp hc with hc | hc
    · exact h.1 hc
    · simp at hc
      exact hn (hc ▸ List.mem_cons_self _ _)

/-! ### Helper lemmas about `wf`, `same`, `depth`, `calculate_md5` -/

theorem wf_dir {es : List (String × FS)} :
    FS.wf (.dir es) = true ↔ nodupKeys (keys es) = true ∧ wfList es = true := by
  simp [FS.wf, Bool.and_eq_true]

theorem wfList_iff {es : List (String × FS)} :
    wfList es = true ↔ ∀ p ∈ es, FS.wf p.2 = true := by
  induction es with
  | nil => simp [wfList]
  | cons p rest ih =>
    obtain ⟨m, e⟩ := p
    simp [wfList, Bool.and_eq_true, ih]

theorem same_file {c d : Bytes} :
    FS.same (.file c) (.file d) = true ↔ c = d := by
  simp [FS.same]

theorem same_dir {es fs : List (String × FS)} :
    FS.same (.dir es) (.dir fs) = true ↔
      sameAll es fs = true ∧ keysSub fs es = true := by
  simp [FS.same, Bool.and_eq_true]

theorem same_dir_file {es : List (String × FS)} {d : Bytes} :
    FS.same (.dir es) (.file d) = false := rfl

theorem same_file_dir {c : Bytes} {fs : List (String × FS)} :
    FS.same (.file c) (.dir fs) = false := rfl

theorem sameAll_iff {es fs : List (String × FS)} :
    sameAll es fs = true ↔
      ∀ p ∈ es, ∃ g, findEntry fs p.1 = some g ∧ FS.same p.2 g = true := by
  induction es with
  | nil => simp [sameAll]
  | cons p rest ih =>
    obtain ⟨n, e⟩ := p
    rw [show sameAll ((n, e) :: rest) fs =
      ((match findEntry fs n with
        | some g => FS.same e g
        | none => false) && sameAll rest fs) from rfl]
    rw [Bool.and_eq_true, ih]
    constructor
    · rintro ⟨h1, h2⟩
      intro q hq
      rcases List.mem_cons.mp hq with hq | hq
      · subst hq
        rcases hg : findEntry fs n with _ | g
        · rw [hg] at h1
          simp at h1
        · rw [hg] at h1
          exact ⟨g, rfl, h1⟩
      · exact h2 q hq
    · intro h
      constructor
      · rcases h (n, e) (List.mem_cons_self _ _) with ⟨g, hg, hs⟩
        rw [hg]
        exact hs
      · exact fun q hq => h q (List.mem_cons_of_mem _ hq)

theorem keysSub_iff {fs es : List (String × FS)} :
    keysSub fs es = true ↔ ∀ q ∈ fs, ∃ g, findEntry es q.1 = some g := by
  simp [keysSub, List.all_eq_true, Option.isSome_iff_exists]

theorem depth_lt_of_mem {es : List (String × FS)} {p : String × FS}
    (h : p ∈ es) : FS.depth p.2 < FS.depth (.dir es) := by
  have : FS.depth p.2 ≤ depthList es := by
    induction es with
    | nil => simp at h
    | cons q rest ih =>
      obtain ⟨m, e⟩ := q
      rcases List.mem_cons.mp h with h1 | h1
      · subst h1
        simp [depthList, Nat.le_max_left]
      · exact le_trans (ih h1) (by simp [depthList, Nat.le_max_right])
  calc FS.depth p.2 ≤ depthList es := this
    _ < depthList es + 1 := Nat.lt_succ_self _
    _ = FS.depth (.dir es) := rfl

theorem chunksAux_foldl (l : Bytes) :
    ∀ (cur : Bytes) (n : Nat) (acc : Bytes),
      (chunksAux l cur n).foldl (fun h c => h ++ c) acc =
        acc ++ cur.reverse ++ l := by
  induction l with
  | nil =>
    intro cur n acc
    rcases cur with _ | ⟨b, cur'⟩ <;> simp [chunksAux]
  | cons b rest ih =>
    intro cur n acc
    rcases n with _ | n
    · simp only [chunksAux, List.foldl_cons]
      rw [ih]
      simp
    · rw [show chunksAux (b :: rest) cur (n + 1) = chunksAux rest (b :: cur) n
        from rfl]
      rw [ih]
      simp

/-- The digest of the chunked streaming loop determines, and is determined
by, the file's bytes. -/
theorem calculate_md5_eq (c : Bytes) : calculate_md5 c = c := by
  rw [calculate_md5, readChunks, chunksAux_foldl]
  simp

theorem calculate_md5_inj {c d : Bytes} :
    calculate_md5 c = calculate_md5 d ↔ c = d := by
  simp [calculate_md5_eq]

/-! ### An induction principle for `FS` -/

/-- Induction on a tree with the inductive hypothesis available for every
entry of a directory listing. -/
theorem FS.ind2 {motive : FS → Prop} (hfile : ∀ c, motive (.file c))
    (hdir : ∀ es, (∀ p ∈ es, motive p.2) → motive (.dir es)) :
    ∀ e, motive e := by
  have key : ∀ (n : Nat) (e : FS), sizeOf e ≤ n → motive e := by
    intro n
    induction n with
    | zero =>
      intro e h
      exfalso
      cases e with
      | file c => simp at h
      | dir es => simp at h
    | succ k ih =>
      intro e h
      cases e with
      | file c => exact hfile c
      | dir es =>
        apply hdir
        intro p hp
        apply ih
        have h1 : sizeOf p < sizeOf es := List.sizeOf_lt_of_mem hp
        have h2 : sizeOf p.2 < sizeOf p := by
          obtain ⟨a, b⟩ := p
          simp
        have h3 : sizeOf (FS.dir es) = 1 + sizeOf es := by simp
        omega
  intro e
  exact key (sizeOf e) e le_rfl

theorem same_refl : ∀ e : FS, FS.wf e = true → FS.same e e = true := by
  apply FS.ind2
  · intro c _
    simp [FS.same]
  · intro es ih hwf
    rw [wf_dir] at hwf
    rw [same_dir]
    constructor
    · rw [sameAll_iff]
      intro p hp
      exact ⟨p.2, findEntry_of_mem hwf.1 (by simpa using hp),
        ih p hp (wfList_iff.mp hwf.2 p hp)⟩
    · rw [keysSub_iff]
      intro q hq
      exact findEntry_isSome.mpr (List.mem_map_of_mem Prod.fst hq)

/-! ### Case-unfolding lemmas for `sync`, `syncItems`, `prune` -/

theorem sync_eq_faultS {faults : List FsPath} {src rep : FS} {sp rp : FsPath}
    (h : sp ∈ faults) :
    sync faults src rep sp rp = ⟨rep, [], [], some (.readError sp)⟩ := by
  cases src <;> simp [sync, h]

theorem sync_eq_file {faults : List FsPath} {c : Bytes} {rep : FS}
    {sp rp : FsPath} (h : sp ∉ faults) :
    sync faults (.file c) rep sp rp = ⟨rep, [], [], some (.readError sp)⟩ := by
  simp [sync, h]

theorem sync_eq_faultR {faults : List FsPath} {ses : List (String × FS)}
    {rep : FS} {sp rp : FsPath} (h1 : sp ∉ faults) (h2 : rp ∈ faults) :
    sync faults (.dir ses) rep sp rp = ⟨rep, [], [], some (.readError rp)⟩ := by
  cases rep <;> simp [sync, h1, h2]

theorem sync_eq_repFile {faults : List FsPath} {ses : List (String × FS)}
    {d : Bytes} {sp rp : FsPath} (h1 : sp ∉ faults) (h2 : rp ∉ faults) :
    sync faults (.dir ses) (.file d) sp rp =
      ⟨.file d, [], [], some (.readError rp)⟩ := by
  simp [sync, h1, h2]

theorem sync_eq_dir_err {faults : List FsPath} {ses res : List (String × FS)}
    {sp rp : FsPath} {e : SyncError} (h1 : sp ∉ faults) (h2 : rp ∉ faults)
    (he : (syncItems faults ses res sp rp).err = some e) :
    sync faults (.dir ses) (.dir res) sp rp =
      ⟨.dir (syncItems faults ses res sp rp).entries,
       (syncItems faults ses res sp rp).log,
       (syncItems faults ses res sp rp).writes, some e⟩ := by
  simp [sync, h1, h2, he]

theorem sync_eq_dir_ok {faults : List FsPath} {ses res : List (String × FS)}
    {sp rp : FsPath} (h1 : sp ∉ faults) (h2 : rp ∉ faults)
    (he : (syncItems faults ses res sp rp).err = none) :
    sync faults (.dir ses) (.dir res) sp rp =
      ⟨.dir (prune faults (keys res) (keys ses)
              (syncItems faults ses res sp rp).entries rp).entries,
       (syncItems faults ses res sp rp).log ++
         (prune faults (keys res) (keys ses)
           (syncItems faults ses res sp rp).entries rp).log,
       (syncItems faults ses res sp rp).writes ++
         (prune faults (keys res) (keys ses)
           (syncItems faults ses res sp rp).entries rp).writes,
       (prune faults (keys res) (keys ses)
         (syncItems faults ses res sp rp).entries rp).err⟩ := by
  simp [sync, h1, h2, he]

theorem syncItems_nil {faults : List FsPath} {res : List (String × FS)}
    {sp rp : FsPath} :
    syncItems faults [] res sp rp = ⟨res, [], [], none⟩ := rfl

theorem syncItems_dir_new {faults : List FsPath} {name : String}
    {ds : List (String × FS)} {rest res : List (String × FS)} {sp rp : FsPath}
    (hf : findEntry res name = none) (h1 : sp ++ [name] ∉ faults)
    (h2 : rp ++ [name] ∉ faults) :
    syncItems faults ((name, .dir ds) :: rest) res sp rp =
      ⟨(syncItems faults rest (res ++ [(name, .dir ds)]) sp rp).entries,
       .dirCreated (rp ++ [name]) ::
         (syncItems faults rest (res ++ [(name, .dir ds)]) sp rp).log,
       .wcopytree (sp ++ [name]) (rp ++ [name]) ::
         (syncItems faults rest (res ++ [(name, .dir ds)]) sp rp).writes,
       (syncItems faults rest (res ++ [(name, .dir ds)]) sp rp).err⟩ := by
  simp [syncItems, hf, h1, h2]

theorem syncItems_dir_sub_err {faults : List FsPath} {name : String}
    {ds : List (String × FS)} {rest res : List (String × FS)} {sp rp : FsPath}
    {rEntry : FS} {e : SyncError} (hf : findEntry res name = some rEntry)
    (hs : (sync faults (.dir ds) rEntry (sp ++ [name]) (rp ++ [name])).err =
      some e) :
    syncItems faults ((name, .dir ds) :: rest) res sp rp =
      ⟨updateEntry res name
         (sync faults (.dir ds) rEntry (sp ++ [name]) (rp ++ [name])).rep,
       (sync faults (.dir ds) rEntry (sp ++ [name]) (rp ++ [name])).log,
       (sync faults (.dir ds) rEntry (sp ++ [name]) (rp ++ [name])).writes,
       some e⟩ := by
  simp [syncItems, hf, hs]

theorem syncItems_dir_sub_ok {faults : List FsPath} {name : String}
    {ds : List (String × FS)} {rest res : List (String × FS)} {sp rp : FsPath}
    {rEntry : FS} (hf : findEntry res name = some rEntry)
    (hs : (sync faults (.dir ds) rEntry (sp ++ [name]) (rp ++ [name])).err =
      none) :
    syncItems faults ((name, .dir ds) :: rest) res sp rp =
      ⟨(syncItems faults rest
          (updateEntry res name
            (sync faults (.dir ds) rEntry (sp ++ [name]) (rp ++ [name])).rep)
          sp rp).entries,
       (sync faults (.dir ds) rEntry (sp ++ [name]) (rp ++ [name])).log ++
         (syncItems faults rest
           (updateEntry res name
             (sync faults (.dir ds) rEntry (sp ++ [name]) (rp ++ [name])).rep)
           sp rp).log,
       (sync faults (.dir ds) rEntry (sp ++ [name]) (rp ++ [name])).writes ++
         (syncItems faults rest
           (updateEntry res name
             (sync faults (.dir ds) rEntry (sp ++ [name]) (rp ++ [name])).rep)
           sp rp).writes,
       (syncItems faults rest
         (updateEntry res name
           (sync faults (.dir ds) rEntry (sp ++ [name]) (rp ++ [name])).rep)
         sp rp).err⟩ := by
  simp [syncItems, hf, hs]

theorem syncItems_file_new {faults : List FsPath} {name : String} {c : Bytes}
    {rest res : List (String × FS)} {sp rp : FsPath}
    (hf : findEntry res name = none) (h1 : sp ++ [name] ∉ faults)
    (h2 : rp ++ [name] ∉ faults) :
    syncItems faults ((name, .file c) :: rest) res sp rp =
      ⟨(syncItems faults rest (res ++ [(name, .file c)]) sp rp).entries,
       .fileCopied (rp ++ [name]) ::
         (syncItems faults rest (res ++ [(name, .file c)]) sp rp).log,
       .wcopy2 (sp ++ [name]) (rp ++ [name]) ::
         (syncItems faults rest (res ++ [(name, .file c)]) sp rp).writes,
       (syncItems faults rest (res ++ [(name, .file c)]) sp rp).err⟩ := by
  simp [syncItems, hf, h1, h2]

theorem syncItems_file_mismatch {faults : List FsPath} {name : String}
    {c : Bytes} {ds : List (String × FS)} {rest res : List (String × FS)}
    {sp rp : FsPath} (hf : findEntry res name = some (.dir ds))
    (h1 : sp ++ [name] ∉ faults) :
    syncItems faults ((name, .file c) :: rest) res sp rp =
      ⟨res, [], [], some (.readError (rp ++ [name]))⟩ := by
  simp [syncItems, hf, h1]

theorem syncItems_file_skip {faults : List FsPath} {name : String}
    {c d : Bytes} {rest res : List (String × FS)} {sp rp : FsPath}
    (hf : findEntry res name = some (.file d)) (h1 : sp ++ [name] ∉ faults)
    (h2 : rp ++ [name] ∉ faults)
    (he : calculate_md5 c = calculate_md5 d) :
    syncItems faults ((name, .file c) :: rest) res sp rp =
      syncItems faults rest res sp rp := by
  simp [syncItems, hf, h1, h2, he]

theorem syncItems_file_copy {faults : List FsPath} {name : String}
    {c d : Bytes} {rest res : List (String × FS)} {sp rp : FsPath}
    (hf : findEntry res name = some (.file d)) (h1 : sp ++ [name] ∉ faults)
    (h2 : rp ++ [name] ∉ faults)
    (he : calculate_md5 c ≠ calculate_md5 d) :
    syncItems faults ((name, .file c) :: rest) res sp rp =
      ⟨(syncItems faults rest (updateEntry res name (.file c)) sp rp).entries,
       .fileCopied (rp ++ [name]) ::
         (syncItems faults rest (updateEntry res name (.file c)) sp rp).log,
       .wcopy2 (sp ++ [name]) (rp ++ [name]) ::
         (syncItems faults rest (updateEntry res name (.file c)) sp rp).writes,
       (syncItems faults rest (updateEntry res name (.file c)) sp rp).err⟩ := by
  simp [syncItems, hf, h1, h2, he]

theorem prune_nil {faults : List FsPath} {sNames : List String}
    {entries : List (String × FS)} {rp : FsPath} :
    prune faults [] sNames entries rp = ⟨entries, [], [], none⟩ := rfl

theorem prune_skip {faults : List FsPath} {item : String}
    {rest sNames : List String} {entries : List (String × FS)} {rp : FsPath}
    (h : item ∈ sNames) :
    prune faults (item :: rest) sNames entries rp =
      prune faults rest sNames entries rp := by
  simp [prune, h]

theorem prune_dir {faults : List FsPath} {item : String}
    {rest sNames : List String} {entries ds : List (String × FS)} {rp : FsPath}
    (h : item ∉ sNames) (hf : findEntry entries item = some (.dir ds))
    (h2 : rp ++ [item] ∉ faults) :
    prune faults (item :: rest) sNames entries rp =
      ⟨(prune faults rest sNames (eraseEntry entries item) rp).entries,
       .dirRemoved (rp ++ [item]) ::
         (prune faults rest sNames (eraseEntry entries item) rp).log,
       .wrmtree (rp ++ [item]) ::
         (prune faults rest sNames (eraseEntry entries item) rp).writes,
       (prune faults rest sNames (eraseEntry entries item) rp).err⟩ := by
  simp [prune, h, hf, h2]

theorem prune_file {faults : List FsPath} {item : String}
    {rest sNames : List String} {entries : List (String × FS)} {d : Bytes}
    {rp : FsPath} (h : item ∉ sNames)
    (hf : findEntry entries item = some (.file d))
    (h2 : rp ++ [item] ∉ faults) :
    prune faults (item :: rest) sNames entries rp =
      ⟨(prune faults rest sNames (eraseEntry entries item) rp).entries,
       .fileRemoved (rp ++ [item]) ::
         (prune faults rest sNames (eraseEntry entries item) rp).log,
       .wremove (rp ++ [item]) ::
         (prune faults rest sNames (eraseEntry entries item) rp).writes,
       (prune faults rest sNames (eraseEntry entries item) rp).err⟩ := by
  simp [prune, h, hf, h2]

theorem prune_missing {faults : List FsPath} {item : String}
    {rest sNames : List String} {entries : List (String × FS)} {rp : FsPath}
    (h : item ∉ sNames) (hf : findEntry entries item = none) :
    prune faults (item :: rest) sNames entries rp =
      ⟨entries, [], [], some (.writeError (rp ++ [item]))⟩ := by
  simp [prune, h, hf]

/-! ### The main invariant of the copy/update loop (fault-free run) -/

/-- Shorthand for the inductive hypothesis threaded through the entry
loop: the recursive `sync` call is correct on every entry of `items`. -/
def SubOk (items : List (String × FS)) : Prop :=
  ∀ p ∈ items, ∀ (f : FS) (sp' rp' : FsPath),
    FS.wf p.2 = true → FS.wf f = true →
    (sync [] p.2 f sp' rp').err = none →
    FS.wf (sync [] p.2 f sp' rp').rep = true ∧
    FS.same p.2 (sync [] p.2 f sp' rp').rep = true

theorem syncItems_main (sp rp : FsPath) :
    ∀ (items res : List (String × FS)),
      SubOk items →
      nodupKeys (keys items) = true →
      (∀ p ∈ items, FS.wf p.2 = true) →
      nodupKeys (keys res) = true →
      (∀ p ∈ res, FS.wf p.2 = true) →
      (syncItems [] items res sp rp).err = none →
      (nodupKeys (keys (syncItems [] items res sp rp).entries) = true ∧
       (∀ p ∈ (syncItems [] items res sp rp).entries, FS.wf p.2 = true)) ∧
      (∀ p ∈ items, ∃ v,
        findEntry (syncItems [] items res sp rp).entries p.1 = some v ∧
        FS.same p.2 v = true) ∧
      (∀ n, n ∉ keys items →
        findEntry (syncItems [] items res sp rp).entries n = findEntry res n) ∧
      (∀ n, n ∈ keys (syncItems [] items res sp rp).entries →
        n ∈ keys res ∨ n ∈ keys items) := by
  intro items
  induction items with
  | nil =>
    intro res _ _ _ hndR hwfR _
    rw [syncItems_nil]
    exact ⟨⟨hndR, hwfR⟩, by simp, fun n _ => rfl, fun n h => Or.inl h⟩
  | cons hd rest ih =>
    obtain ⟨name, sEntry⟩ := hd
    intro res hIH hndI hwfI hndR hwfR herr
    rw [keys_cons, nodupKeys_cons] at hndI
    have hIHrest : SubOk rest := fun p hp => hIH p (List.mem_cons_of_mem _ hp)
    have hwfIrest : ∀ p ∈ rest, FS.wf p.2 = true :=
      fun p hp => hwfI p (List.mem_cons_of_mem _ hp)
    have hwfHead : FS.wf sEntry = true := hwfI _ (List.mem_cons_self _ _)
    cases sEntry with
    | dir ds =>
      cases hf : findEntry res name with
      | none =>
        rw [syncItems_dir_new hf (List.not_mem_nil _) (List.not_mem_nil _)]
          at herr ⊢
        simp only at herr ⊢
        have hnmem : name ∉ keys res := findEntry_eq_none.mp hf
        have hnd1 : nodupKeys (keys (res ++ [(name, FS.dir ds)])) = true := by
          rw [keys_append]
          exact nodupKeys_append_one hndR (by simpa [keys] using hnmem)
        have hwf1 : ∀ p ∈ res ++ [(name, FS.dir ds)], FS.wf p.2 = true := by
          intro p hp
          rcases List.mem_append.mp hp with hp | hp
          · exact hwfR p hp
          · simp at hp
            rw [hp]
            exact hwfHead
        obtain ⟨⟨hnd2, hwf2⟩, hmem2, hoth2, hkey2⟩ :=
          ih (res ++ [(name, FS.dir ds)]) hIHrest hndI.2 hwfIrest hnd1 hwf1 herr
        refine ⟨⟨hnd2, hwf2⟩, ?_, ?_, ?_⟩
        · intro p hp
          rcases List.mem_cons.mp hp with hp | hp
          · subst hp
            refine ⟨.dir ds, ?_, same_refl _ hwfHead⟩
            rw [hoth2 name hndI.1, findEntry_append_right hf]
            simp [findEntry]
          · exact hmem2 p hp
        · intro n hn
          rw [keys_cons] at hn
          have hn1 : n ≠ name := fun he => hn (he ▸ List.mem_cons_self _ _)
          have hn2 : n ∉ keys rest := fun hc => hn (List.mem_cons_of_mem _ hc)
          rw [hoth2 n hn2]
          rcases hr : findEntry res n with _ | v
          · rw [findEntry_append_right hr]
            simp [findEntry, Ne.symm hn1]
          · exact findEntry_append_left hr
        · intro n hn
          rcases hkey2 n hn with hn | hn
          · rw [keys_append] at hn
            rcases List.mem_append.mp hn with hn | hn
            · exact Or.inl hn
            · simp [keys] at hn
              exact Or.inr (hn ▸ List.mem_cons_self _ _)
          · exact Or.inr (List.mem_cons_of_mem _ hn)
      | some rEntry =>
        cases hs : (sync [] (.dir ds) rEntry (sp ++ [name]) (rp ++ [name])).err
          with
        | some e =>
          rw [syncItems_dir_sub_err hf hs] at herr
          simp at herr
        | none =>
          rw [syncItems_dir_sub_ok hf hs] at herr ⊢
          simp only at herr ⊢
          have hwfE : FS.wf rEntry = true := hwfR _ (findEntry_mem hf)
          obtain ⟨hwfS, hsameS⟩ :=
            hIH _ (List.mem_cons_self _ _) rEntry (sp ++ [name]) (rp ++ [name])
              hwfHead hwfE hs
          set s := sync [] (.dir ds) rEntry (sp ++ [name]) (rp ++ [name])
            with hsdef
          have hnd1 : nodupKeys (keys (updateEntry res name s.rep)) = true := by
            rw [keys_updateEntry]
            exact hndR
          have hwf1 : ∀ p ∈ updateEntry res name s.rep, FS.wf p.2 = true := by
            intro p hp
            rcases mem_updateEntry hp with hp | hp
            · exact hwfR p hp
            · rw [hp]
              exact hwfS
          obtain ⟨⟨hnd2, hwf2⟩, hmem2, hoth2, hkey2⟩ :=
            ih (updateEntry res name s.rep) hIHrest hndI.2 hwfIrest hnd1 hwf1
              herr
          refine ⟨⟨hnd2, hwf2⟩, ?_, ?_, ?_⟩
          · intro p hp
            rcases List.mem_cons.mp hp with hp | hp
            · subst hp
              refine ⟨s.rep, ?_, hsameS⟩
              rw [hoth2 name hndI.1]
              exact findEntry_updateEntry_self _ hf
            · exact hmem2 p hp
          · intro n hn
            rw [keys_cons] at hn
            have hn1 : n ≠ name := fun he => hn (he ▸ List.mem_cons_self _ _)
            have hn2 : n ∉ keys rest := fun hc => hn (List.mem_cons_of_mem _ hc)
            rw [hoth2 n hn2, findEntry_updateEntry_ne _ hn1]
          · intro n hn
            rcases hkey2 n hn with hn | hn
            · rw [keys_updateEntry] at hn
              exact Or.inl hn
            · exact Or.inr (List.mem_cons_of_mem _ hn)
    | file c =>
      cases hf : findEntry res name with
      | none =>
        rw [syncItems_file_new hf (List.not_mem_nil _) (List.not_mem_nil _)]
          at herr ⊢
        simp only at herr ⊢
        have hnmem : name ∉ keys res := findEntry_eq_none.mp hf
        have hnd1 : nodupKeys (keys (res ++ [(name, FS.file c)])) = true := by
          rw [keys_append]
          exact nodupKeys_append_one hndR (by simpa [keys] using hnmem)
        have hwf1 : ∀ p ∈ res ++ [(name, FS.file c)], FS.wf p.2 = true := by
          intro p hp
          rcases List.mem_append.mp hp with hp | hp
          · exact hwfR p hp
          · simp at hp
            rw [hp]
            rfl
        obtain ⟨⟨hnd2, hwf2⟩, hmem2, hoth2, hkey2⟩ :=
          ih (res ++ [(name, FS.file c)]) hIHrest hndI.2 hwfIrest hnd1 hwf1 herr
        refine ⟨⟨hnd2, hwf2⟩, ?_, ?_, ?_⟩
        · intro p hp
          rcases List.mem_cons.mp hp with hp | hp
          · subst hp
            refine ⟨.file c, ?_, by simp [FS.same]⟩
            rw [hoth2 name hndI.1, findEntry_append_right hf]
            simp [findEntry]
          · exact hmem2 p hp
        · intro n hn
          rw [keys_cons] at hn
          have hn1 : n ≠ name := fun he => hn (he ▸ List.mem_cons_self _ _)
          have hn2 : n ∉ keys rest := fun hc => hn (List.mem_cons_of_mem _ hc)
          rw [hoth2 n hn2]
          rcases hr : findEntry res n with _ | v
          · rw [findEntry_append_right hr]
            simp [findEntry, Ne.symm hn1]
          · exact findEntry_append_left hr
        · intro n hn
          rcases hkey2 n hn with hn | hn
          · rw [keys_append] at hn
            rcases List.mem_append.mp hn with hn | hn
            · exact Or.inl hn
            · simp [keys] at hn
              exact Or.inr (hn ▸ List.mem_cons_self _ _)
          · exact Or.inr (List.mem_cons_of_mem _ hn)
      | some rEntry =>
        cases rEntry with
        | dir ds2 =>
          rw [syncItems_file_mismatch hf (List.not_mem_nil _)] at herr
          simp at herr
        | file d =>
          by_cases hmd : calculate_md5 c = calculate_md5 d
          · rw [syncItems_file_skip hf (List.not_mem_nil _)
              (List.not_mem_nil _) hmd] at herr ⊢
            have hcd : c = d := calculate_md5_inj.mp hmd
            obtain ⟨⟨hnd2, hwf2⟩, hmem2, hoth2, hkey2⟩ :=
              ih res hIHrest hndI.2 hwfIrest hndR hwfR herr
            refine ⟨⟨hnd2, hwf2⟩, ?_, ?_, ?_⟩
            · intro p hp
              rcases List.mem_cons.mp hp with hp | hp
              · subst hp
                refine ⟨.file d, ?_, by simp [FS.same, hcd]⟩
                rw [hoth2 name hndI.1]
                exact hf
              · exact hmem2 p hp
            · intro n hn
              rw [keys_cons] at hn
              have hn2 : n ∉ keys rest :=
                fun hc => hn (List.mem_cons_of_mem _ hc)
              exact hoth2 n hn2
            · intro n hn
              rcases hkey2 n hn with hn | hn
              · exact Or.inl hn
              · exact Or.inr (List.mem_cons_of_mem _ hn)
          · rw [syncItems_file_copy hf (List.not_mem_nil _)
              (List.not_mem_nil _) hmd] at herr ⊢
            simp only at herr ⊢
            have hnd1 :
                nodupKeys (keys (updateEntry res name (FS.file c))) = true := by
              rw [keys_updateEntry]
              exact hndR
            have hwf1 :
                ∀ p ∈ updateEntry res name (FS.file c), FS.wf p.2 = true := by
              intro p hp
              rcases mem_updateEntry hp with hp | hp
              · exact hwfR p hp
              · rw [hp]
                rfl
            obtain ⟨⟨hnd2, hwf2⟩, hmem2, hoth2, hkey2⟩ :=
              ih (updateEntry res name (FS.file c)) hIHrest hndI.2 hwfIrest
                hnd1 hwf1 herr
            refine ⟨⟨hnd2, hwf2⟩, ?_, ?_, ?_⟩
            · intro p hp
              rcases List.mem_cons.mp hp with hp | hp
              · subst hp
                refine ⟨.file c, ?_, by simp [FS.same]⟩
                rw [hoth2 name hndI.1]
                exact findEntry_updateEntry_self _ hf
              · exact hmem2 p hp
            · intro n hn
              rw [keys_cons] at hn
              have hn1 : n ≠ name := fun he => hn (he ▸ List.mem_cons_self _ _)
              have hn2 : n ∉ keys rest :=
                fun hc => hn (List.mem_cons_of_mem _ hc)
              rw [hoth2 n hn2, findEntry_updateEntry_ne _ hn1]
            · intro n hn
              rcases hkey2 n hn with hn | hn
              · rw [keys_updateEntry] at hn
                exact Or.inl hn
              · exact Or.inr (List.mem_cons_of_mem _ hn)

/-! ### The main invariant of the pruning loop (fault-free run) -/

theorem prune_main (rp : FsPath) :
    ∀ (rNames : List String) (sNames : List String)
      (entries : List (String × FS)),
      nodupKeys (keys entries) = true →
      (prune [] rNames sNames entries rp).err = none →
      (∀ n, n ∈ sNames →
        findEntry (prune [] rNames sNames entries rp).entries n =
          findEntry entries n) ∧
      (∀ n, n ∉ rNames →
        findEntry (prune [] rNames sNames entries rp).entries n =
          findEntry entries n) ∧
      (∀ n, n ∈ rNames → n ∉ sNames →
        findEntry (prune [] rNames sNames entries rp).entries n = none) ∧
      (∀ p ∈ (prune [] rNames sNames entries rp).entries, p ∈ entries) ∧
      nodupKeys (keys (prune [] rNames sNames entries rp).entries) = true := by
  intro rNames
  induction rNames with
  | nil =>
    intro sNames entries hnd _
    rw [prune_nil]
    exact ⟨fun n _ => rfl, fun n _ => rfl,
      fun n h _ => absurd h (List.not_mem_nil n), fun p hp => hp, hnd⟩
  | cons item rest ih =>
    intro sNames entries hnd herr
    by_cases hsk : item ∈ sNames
    · rw [prune_skip hsk] at herr ⊢
      obtain ⟨ha, hb, hc, hd, he⟩ := ih sNames entries hnd herr
      refine ⟨ha, ?_, ?_, hd, he⟩
      · intro n hn
        exact hb n fun hx => hn (List.mem_cons_of_mem _ hx)
      · intro n hn hns
        rcases List.mem_cons.mp hn with hn | hn
        · exact absurd (hn ▸ hsk) hns
        · exact hc n hn hns
    · rcases hf : findEntry entries item with _ | v
      · rw [prune_missing hsk hf] at herr
        simp at herr
      · have herase :
            (prune [] rest sNames (eraseEntry entries item) rp).err = none ∧
            (prune [] (item :: rest) sNames entries rp).entries =
              (prune [] rest sNames (eraseEntry entries item) rp).entries := by
          cases v with
          | dir ds =>
            rw [prune_dir hsk hf (List.not_mem_nil _)] at herr ⊢
            exact ⟨herr, rfl⟩
          | file d =>
            rw [prune_file hsk hf (List.not_mem_nil _)] at herr ⊢
            exact ⟨herr, rfl⟩
        obtain ⟨herr2, hEq⟩ := herase
        rw [hEq]
        obtain ⟨ha, hb, hc, hd, he⟩ :=
          ih sNames (eraseEntry entries item) (nodupKeys_eraseEntry item hnd)
            herr2
        refine ⟨?_, ?_, ?_, ?_, he⟩
        · intro n hn
          have hne : n ≠ item := fun hx => hsk (hx ▸ hn)
          rw [ha n hn, findEntry_eraseEntry_ne hne]
        · intro n hn
          have hne : n ≠ item := fun hx => hn (hx ▸ List.mem_cons_self _ _)
          have hnr : n ∉ rest := fun hx => hn (List.mem_cons_of_mem _ hx)
          rw [hb n hnr, findEntry_eraseEntry_ne hne]
        · intro n hn hns
          rcases List.mem_cons.mp hn with hn | hn
          · subst hn
            rcases hcontra : findEntry
                (prune [] rest sNames (eraseEntry entries n) rp).entries n
              with _ | w
            · rfl
            · exfalso
              have hmem : (n, w) ∈ eraseEntry entries n :=
                hd _ (findEntry_mem hcontra)
              have h1 : n ∈ keys (eraseEntry entries n) :=
                List.mem_map_of_mem Prod.fst hmem
              exact findEntry_eq_none.mp (findEntry_eraseEntry_self hnd) h1
          · exact hc n hn hns
        · intro p hp
          exact mem_eraseEntry (hd p hp)

/-- `prune` does nothing when every captured replica name also occurs in
the captured source listing. -/
theorem prune_all_skip {faults : List FsPath} {rp : FsPath} :
    ∀ {rNames sNames : List String} {entries : List (String × FS)},
      (∀ m ∈ rNames, m ∈ sNames) →
      prune faults rNames sNames entries rp = ⟨entries, [], [], none⟩ := by
  intro rNames
  induction rNames with
  | nil => intro sNames entries _; rfl
  | cons item rest ih =>
    intro sNames entries h
    rw [prune_skip (h item (List.mem_cons_self _ _))]
    exact ih fun m hm => h m (List.mem_cons_of_mem _ hm)

/-! ### Convergence of a fault-free pass -/

theorem sync_main : ∀ (src rep : FS) (sp rp : FsPath),
    FS.wf src = true → FS.wf rep = true →
    (sync [] src rep sp rp).err = none →
    FS.wf (sync [] src rep sp rp).rep = true ∧
    FS.same src (sync [] src rep sp rp).rep = true := by
  intro src
  induction src using FS.ind2 with
  | hfile c =>
    intro rep sp rp _ _ herr
    rw [sync_eq_file (List.not_mem_nil _)] at herr
    simp at herr
  | hdir es ih =>
    intro rep sp rp hwfS hwfR herr
    cases rep with
    | file d =>
      rw [sync_eq_repFile (List.not_mem_nil _) (List.not_mem_nil _)] at herr
      simp at herr
    | dir res =>
      cases hi : (syncItems [] es res sp rp).err with
      | some e =>
        rw [sync_eq_dir_err (List.not_mem_nil _) (List.not_mem_nil _) hi]
          at herr
        simp at herr
      | none =>
        rw [sync_eq_dir_ok (List.not_mem_nil _) (List.not_mem_nil _) hi]
          at herr ⊢
        simp only at herr ⊢
        rw [wf_dir] at hwfS hwfR
        have hsub : SubOk es := fun p hp f sp' rp' h1 h2 h3 =>
          ih p hp f sp' rp' h1 h2 h3
        obtain ⟨⟨hnd1, hwf1⟩, hmem1, hoth1, hkey1⟩ :=
          syncItems_main sp rp es res hsub hwfS.1 (wfList_iff.mp hwfS.2)
            hwfR.1 (wfList_iff.mp hwfR.2) hi
        obtain ⟨ha, hb, hc, hd, he⟩ :=
          prune_main rp (keys res) (keys es)
            (syncItems [] es res sp rp).entries hnd1 herr
        constructor
        · rw [wf_dir]
          refine ⟨he, wfList_iff.mpr ?_⟩
          intro p hp
          exact hwf1 p (hd p hp)
        · rw [same_dir]
          constructor
          · rw [sameAll_iff]
            intro p hp
            obtain ⟨v, hv, hsame⟩ := hmem1 p hp
            refine ⟨v, ?_, hsame⟩
            rw [ha p.1 (List.mem_map_of_mem Prod.fst hp)]
            exact hv
          · rw [keysSub_iff]
            intro q hq
            by_cases hqes : q.1 ∈ keys es
            · exact findEntry_isSome.mpr hqes
            · exfalso
              have hq1 : q ∈ (syncItems [] es res sp rp).entries := hd q hq
              have hq2 : q.1 ∈ keys (syncItems [] es res sp rp).entries :=
                List.mem_map_of_mem Prod.fst hq1
              rcases hkey1 q.1 hq2 with hq3 | hq3
              · have := hc q.1 hq3 hqes
                have hq4 : q.1 ∈ keys (prune [] (keys res) (keys es)
                    (syncItems [] es res sp rp).entries rp).entries :=
                  List.mem_map_of_mem Prod.fst hq
                exact findEntry_eq_none.mp this hq4
              · exact hqes hq3

/-! ### A pass over already-synchronized trees does nothing -/

theorem sameAll_cons_elim {name : String} {e : FS}
    {rest res : List (String × FS)}
    (h : sameAll ((name, e) :: rest) res = true) :
    (∃ g, findEntry res name = some g ∧ FS.same e g = true) ∧
      sameAll rest res = true := by
  rw [show sameAll ((name, e) :: rest) res =
    ((match findEntry res name with
      | some g => FS.same e g
      | none => false) && sameAll rest res) from rfl, Bool.and_eq_true] at h
  refine ⟨?_, h.2⟩
  rcases hf : findEntry res name with _ | g
  · rw [hf] at h
    exact absurd h.1 (by simp)
  · rw [hf] at h
    exact ⟨g, rfl, h.1⟩

theorem syncItems_noop (sp rp : FsPath) :
    ∀ (items res : List (String × FS)),
      (∀ p ∈ items, ∀ (f : FS) (sp' rp' : FsPath),
        FS.wf p.2 = true → FS.wf f = true → FS.same p.2 f = true →
        FS.isDir p.2 = true → sync [] p.2 f sp' rp' = ⟨f, [], [], none⟩) →
      (∀ p ∈ items, FS.wf p.2 = true) →
      (∀ p ∈ res, FS.wf p.2 = true) →
      sameAll items res = true →
      syncItems [] items res sp rp = ⟨res, [], [], none⟩ := by
  intro items
  induction items with
  | nil => intro res _ _ _ _; rfl
  | cons hd rest ih =>
    obtain ⟨name, e⟩ := hd
    intro res hIH hwfI hwfR hsame
    obtain ⟨⟨g, hf, hsg⟩, hrest⟩ := sameAll_cons_elim hsame
    have hwfE : FS.wf e = true := hwfI _ (List.mem_cons_self _ _)
    have hwfG : FS.wf g = true := hwfR _ (findEntry_mem hf)
    have hIHrest := fun p hp => hIH p (List.mem_cons_of_mem _ hp)
    have hwfIrest := fun p hp => hwfI p (List.mem_cons_of_mem _ hp)
    cases e with
    | dir ds =>
      cases g with
      | file d => rw [same_dir_file] at hsg; exact absurd hsg (by simp)
      | dir gs =>
        have hsub : sync [] (.dir ds) (.dir gs) (sp ++ [name]) (rp ++ [name]) =
            ⟨.dir gs, [], [], none⟩ :=
          hIH _ (List.mem_cons_self _ _) _ _ _ hwfE hwfG hsg rfl
        have hs : (sync [] (.dir ds) (.dir gs) (sp ++ [name])
            (rp ++ [name])).err = none := by rw [hsub]
        rw [syncItems_dir_sub_ok hf hs, hsub]
        simp only
        rw [updateEntry_eq_self hf, ih res hIHrest hwfIrest hwfR hrest]
        simp
    | file c =>
      cases g with
      | dir gs => rw [same_file_dir] at hsg; exact absurd hsg (by simp)
      | file d =>
        have hcd : c = d := same_file.mp hsg
        have hmd : calculate_md5 c = calculate_md5 d := by rw [hcd]
        rw [syncItems_file_skip hf (List.not_mem_nil _) (List.not_mem_nil _)
          hmd]
        exact ih res hIHrest hwfIrest hwfR hrest

theorem sync_noop : ∀ (src rep : FS) (sp rp : FsPath),
    FS.wf src = true → FS.wf rep = true → FS.same src rep = true →
    FS.isDir src = true →
    sync [] src rep sp rp = ⟨rep, [], [], none⟩ := by
  intro src
  induction src using FS.ind2 with
  | hfile c =>
    intro rep sp rp _ _ _ hdir
    exact absurd hdir (by simp [FS.isDir])
  | hdir es ih =>
    intro rep sp rp hwfS hwfR hsame _
    cases rep with
    | file d => rw [same_dir_file] at hsame; exact absurd hsame (by simp)
    | dir res =>
      rw [same_dir] at hsame
      rw [wf_dir] at hwfS hwfR
      have hitems : syncItems [] es res sp rp = ⟨res, [], [], none⟩ :=
        syncItems_noop sp rp es res ih (wfList_iff.mp hwfS.2)
          (wfList_iff.mp hwfR.2) hsame.1
      have hi : (syncItems [] es res sp rp).err = none := by rw [hitems]
      rw [sync_eq_dir_ok (List.not_mem_nil _) (List.not_mem_nil _) hi, hitems]
      simp only
      have hskip : ∀ m ∈ keys res, m ∈ keys es := by
        intro m hm
        rcases List.mem_map.mp hm with ⟨q, hq, he⟩
        obtain ⟨g, hg⟩ := keysSub_iff.mp hsame.2 q hq
        rcases findEntry_isSome.mp ⟨g, hg⟩ with hx
        exact he ▸ hx
      rw [prune_all_skip hskip]
      simp

/-! ### Fault-branch unfoldings -/

theorem syncItems_fault_dir_new_s {faults : List FsPath} {name : String}
    {ds : List (String × FS)} {rest res : List (String × FS)} {sp rp : FsPath}
    (hf : findEntry res name = none) (h1 : sp ++ [name] ∈ faults) :
    syncItems faults ((name, .dir ds) :: rest) res sp rp =
      ⟨res, [], [], some (.readError (sp ++ [name]))⟩ := by
  simp [syncItems, hf, h1]

theorem syncItems_fault_dir_new_r {faults : List FsPath} {name : String}
    {ds : List (String × FS)} {rest res : List (String × FS)} {sp rp : FsPath}
    (hf : findEntry res name = none) (h1 : sp ++ [name] ∉ faults)
    (h2 : rp ++ [name] ∈ faults) :
    syncItems faults ((name, .dir ds) :: rest) res sp rp =
      ⟨res, [], [], some (.writeError (rp ++ [name]))⟩ := by
  simp [syncItems, hf, h1, h2]

theorem syncItems_fault_file_new_s {faults : List FsPath} {name : String}
    {c : Bytes} {rest res : List (String × FS)} {sp rp : FsPath}
    (hf : findEntry res name = none) (h1 : sp ++ [name] ∈ faults) :
    syncItems faults ((name, .file c) :: rest) res sp rp =
      ⟨res, [], [], some (.readError (sp ++ [name]))⟩ := by
  simp [syncItems, hf, h1]

theorem syncItems_fault_file_new_r {faults : List FsPath} {name : String}
    {c : Bytes} {rest res : List (String × FS)} {sp rp : FsPath}
    (hf : findEntry res name = none) (h1 : sp ++ [name] ∉ faults)
    (h2 : rp ++ [name] ∈ faults) :
    syncItems faults ((name, .file c) :: rest) res sp rp =
      ⟨res, [], [], some (.writeError (rp ++ [name]))⟩ := by
  simp [syncItems, hf, h1, h2]

theorem syncItems_fault_file_some_s {faults : List FsPath} {name : String}
    {c : Bytes} {rEntry : FS} {rest res : List (String × FS)} {sp rp : FsPath}
    (hf : findEntry res name = some rEntry) (h1 : sp ++ [name] ∈ faults) :
    syncItems faults ((name, .file c) :: rest) res sp rp =
      ⟨res, [], [], some (.readError (sp ++ [name]))⟩ := by
  cases rEntry <;> simp [syncItems, hf, h1]

theorem syncItems_fault_file_file_r {faults : List FsPath} {name : String}
    {c d : Bytes} {rest res : List (String × FS)} {sp rp : FsPath}
    (hf : findEntry res name = some (.file d)) (h1 : sp ++ [name] ∉ faults)
    (h2 : rp ++ [name] ∈ faults) :
    syncItems faults ((name, .file c) :: rest) res sp rp =
      ⟨res, [], [], some (.readError (rp ++ [name]))⟩ := by
  simp [syncItems, hf, h1, h2]

theorem prune_dir_fault {faults : List FsPath} {item : String}
    {rest sNames : List String} {entries ds : List (String × FS)} {rp : FsPath}
    (h : item ∉ sNames) (hf : findEntry entries item = some (.dir ds))
    (h2 : rp ++ [item] ∈ faults) :
    prune faults (item :: rest) sNames entries rp =
      ⟨entries, [], [], some (.writeError (rp ++ [item]))⟩ := by
  simp [prune, h, hf, h2]

theorem prune_file_fault {faults : List FsPath} {item : String}
    {rest sNames : List String} {entries : List (String × FS)} {d : Bytes}
    {rp : FsPath} (h : item ∉ sNames)
    (hf : findEntry entries item = some (.file d))
    (h2 : rp ++ [item] ∈ faults) :
    prune faults (item :: rest) sNames entries rp =
      ⟨entries, [], [], some (.writeError (rp ++ [item]))⟩ := by
  simp [prune, h, hf, h2]

/-! ### Shape of logged paths and write targets -/

theorem prune_shape {rp : FsPath} {faults : List FsPath} :
    ∀ {rNames sNames : List String} {entries : List (String × FS)},
      (∀ op ∈ (prune faults rNames sNames entries rp).log,
        ∃ m, m ∈ rNames ∧ m ∉ sNames ∧
          (op = .dirRemoved (rp ++ [m]) ∨ op = .fileRemoved (rp ++ [m]))) ∧
      (∀ w ∈ (prune faults rNames sNames entries rp).writes,
        ∃ m, m ∈ rNames ∧ m ∉ sNames ∧ Write.target w = rp ++ [m]) := by
  intro rNames
  induction rNames with
  | nil =>
    intro sNames entries
    rw [prune_nil]
    exact ⟨by simp, by simp⟩
  | cons item rest ih =>
    intro sNames entries
    by_cases hsk : item ∈ sNames
    · rw [prune_skip hsk]
      refine ⟨?_, ?_⟩
      · intro op hop
        obtain ⟨m, h1, h2, h3⟩ := ih.1 op hop
        exact ⟨m, List.mem_cons_of_mem _ h1, h2, h3⟩
      · intro w hw
        obtain ⟨m, h1, h2, h3⟩ := ih.2 w hw
        exact ⟨m, List.mem_cons_of_mem _ h1, h2, h3⟩
    · rcases hf : findEntry entries item with _ | v
      · rw [prune_missing hsk hf]
        exact ⟨by simp, by simp⟩
      · by_cases hft : rp ++ [item] ∈ faults
        · cases v with
          | dir ds => rw [prune_dir_fault hsk hf hft]; exact ⟨by simp, by simp⟩
          | file d => rw [prune_file_fault hsk hf hft]; exact ⟨by simp, by simp⟩
        · cases v with
          | dir ds =>
            rw [prune_dir hsk hf hft]
            refine ⟨?_, ?_⟩
            · intro op hop
              rcases List.mem_cons.mp hop with hop | hop
              · exact ⟨item, List.mem_cons_self _ _, hsk, Or.inl hop⟩
              · obtain ⟨m, h1, h2, h3⟩ := ih.1 op hop
                exact ⟨m, List.mem_cons_of_mem _ h1, h2, h3⟩
            · intro w hw
              rcases List.mem_cons.mp hw with hw | hw
              · exact ⟨item, List.mem_cons_self _ _, hsk, by rw [hw]; rfl⟩
              · obtain ⟨m, h1, h2, h3⟩ := ih.2 w hw
                exact ⟨m, List.mem_cons_of_mem _ h1, h2, h3⟩
          | file d =>
            rw [prune_file hsk hf hft]
            refine ⟨?_, ?_⟩
            · intro op hop
              rcases List.mem_cons.mp hop with hop | hop
              · exact ⟨item, List.mem_cons_self _ _, hsk, Or.inr hop⟩
              · obtain ⟨m, h1, h2, h3⟩ := ih.1 op hop
                exact ⟨m, List.mem_cons_of_mem _ h1, h2, h3⟩
            · intro w hw
              rcases List.mem_cons.mp hw with hw | hw
              · exact ⟨item, List.mem_cons_self _ _, hsk, by rw [hw]; rfl⟩
              · obtain ⟨m, h1, h2, h3⟩ := ih.2 w hw
                exact ⟨m, List.mem_cons_of_mem _ h1, h2, h3⟩

/-- Paths named by the operations and writes of the entry loop start with a
name of the processed listing, directly below `rp`. -/
def ItemsShape (items : List (String × FS)) (r : ItemsOut) (rp : FsPath) :
    Prop :=
  (∀ op ∈ r.log, ∃ m t, m ∈ keys items ∧ Op.path op = rp ++ m :: t) ∧
  (∀ w ∈ r.writes, ∃ m t, m ∈ keys items ∧ Write.target w = rp ++ m :: t)

/-- The per-entry shape hypothesis for the recursive calls. -/
def SubShape (faults : List FsPath) (items : List (String × FS)) : Prop :=
  ∀ p ∈ items, ∀ (rep' : FS) (sp' rp' : FsPath),
    (∀ op ∈ (sync faults p.2 rep' sp' rp').log,
      ∃ m t, Op.path op = rp' ++ m :: t) ∧
    (∀ w ∈ (sync faults p.2 rep' sp' rp').writes,
      ∃ m t, Write.target w = rp' ++ m :: t)

theorem syncItems_shape_of {faults : List FsPath} {sp rp : FsPath} :
    ∀ (items res : List (String × FS)), SubShape faults items →
      ItemsShape items (syncItems faults items res sp rp) rp := by
  intro items
  induction items with
  | nil =>
    intro res _
    rw [syncItems_nil]
    exact ⟨by simp, by simp⟩
  | cons hd rest ihr =>
    obtain ⟨name, sEntry⟩ := hd
    intro res hsub
    have hsubRest : SubShape faults rest :=
      fun p hp => hsub p (List.mem_cons_of_mem _ hp)
    have tailShape : ∀ res', ItemsShape ((name, sEntry) :: rest)
        (syncItems faults rest res' sp rp) rp := by
      intro res'
      obtain ⟨ho, hw⟩ := ihr res' hsubRest
      refine ⟨?_, ?_⟩
      · intro op hop
        obtain ⟨m, t, hm, hp⟩ := ho op hop
        exact ⟨m, t, List.mem_cons_of_mem _ hm, hp⟩
      · intro w hw2
        obtain ⟨m, t, hm, hp⟩ := hw w hw2
        exact ⟨m, t, List.mem_cons_of_mem _ hm, hp⟩
    have headPath : ∀ t : List String,
        (rp ++ [name]) ++ t = rp ++ name :: t := by
      intro t
      rw [List.append_assoc]
      rfl
    have subShape : ∀ rEntry,
        (∀ op ∈ (sync faults sEntry rEntry (sp ++ [name])
            (rp ++ [name])).log,
          ∃ m t, m ∈ keys ((name, sEntry) :: rest) ∧
            Op.path op = rp ++ m :: t) ∧
        (∀ w ∈ (sync faults sEntry rEntry (sp ++ [name])
            (rp ++ [name])).writes,
          ∃ m t, m ∈ keys ((name, sEntry) :: rest) ∧
            Write.target w = rp ++ m :: t) := by
      intro rEntry
      obtain ⟨ho, hw⟩ := hsub (name, sEntry) (List.mem_cons_self _ _)
        rEntry (sp ++ [name]) (rp ++ [name])
      refine ⟨?_, ?_⟩
      · intro op hop
        obtain ⟨m, t, hp⟩ := ho op hop
        exact ⟨name, m :: t, List.mem_cons_self _ _, by rw [hp, headPath]⟩
      · intro w hw2
        obtain ⟨m, t, hp⟩ := hw w hw2
        exact ⟨name, m :: t, List.mem_cons_self _ _, by rw [hp, headPath]⟩
    cases sEntry with
    | dir ds =>
      rcases hf : findEntry res name with _ | rEntry
      · by_cases hs1 : sp ++ [name] ∈ faults
        · rw [syncItems_fault_dir_new_s hf hs1]
          exact ⟨by simp, by simp⟩
        by_cases hs2 : rp ++ [name] ∈ faults
        · rw [syncItems_fault_dir_new_r hf hs1 hs2]
          exact ⟨by simp, by simp⟩
        rw [syncItems_dir_new hf hs1 hs2]
        obtain ⟨ho, hw⟩ := tailShape (res ++ [(name, FS.dir ds)])
        refine ⟨?_, ?_⟩
        · intro op hop
          rcases List.mem_cons.mp hop with hop | hop
          · exact ⟨name, [], List.mem_cons_self _ _, by rw [hop]; rfl⟩
          · exact ho op hop
        · intro w hw2
          rcases List.mem_cons.mp hw2 with hw2 | hw2
          · exact ⟨name, [], List.mem_cons_self _ _, by rw [hw2]; rfl⟩
          · exact hw w hw2
      · cases hs : (sync faults (.dir ds) rEntry (sp ++ [name])
            (rp ++ [name])).err with
        | some e =>
          rw [syncItems_dir_sub_err hf hs]
          obtain ⟨ho, hw⟩ := subShape rEntry
          exact ⟨fun op hop => ho op hop, fun w hw2 => hw w hw2⟩
        | none =>
          rw [syncItems_dir_sub_ok hf hs]
          obtain ⟨ho1, hw1⟩ := subShape rEntry
          obtain ⟨ho2, hw2⟩ := tailShape (updateEntry res name
            (sync faults (.dir ds) rEntry (sp ++ [name]) (rp ++ [name])).rep)
          refine ⟨?_, ?_⟩
          · intro op hop
            rcases List.mem_append.mp hop with hop | hop
            · exact ho1 op hop
            · exact ho2 op hop
          · intro w hw3
            rcases List.mem_append.mp hw3 with hw3 | hw3
            · exact hw1 w hw3
            · exact hw2 w hw3
    | file c =>
      rcases hf : findEntry res name with _ | rEntry
      · by_cases hs1 : sp ++ [name] ∈ faults
        · rw [syncItems_fault_file_new_s hf hs1]
          exact ⟨by simp, by simp⟩
        by_cases hs2 : rp ++ [name] ∈ faults
        · rw [syncItems_fault_file_new_r hf hs1 hs2]
          exact ⟨by simp, by simp⟩
        rw [syncItems_file_new hf hs1 hs2]
        obtain ⟨ho, hw⟩ := tailShape (res ++ [(name, FS.file c)])
        refine ⟨?_, ?_⟩
        · intro op hop
          rcases List.mem_cons.mp hop with hop | hop
          · exact ⟨name, [], List.mem_cons_self _ _, by rw [hop]; rfl⟩
          · exact ho op hop
        · intro w hw2
          rcases List.mem_cons.mp hw2 with hw2 | hw2
          · exact ⟨name, [], List.mem_cons_self _ _, by rw [hw2]; rfl⟩
          · exact hw w hw2
      · by_cases hs1 : sp ++ [name] ∈ faults
        · rw [syncItems_fault_file_some_s hf hs1]
          exact ⟨by simp, by simp⟩
        cases rEntry with
        | dir ds2 =>
          rw [syncItems_file_mismatch hf hs1]
          exact ⟨by simp, by simp⟩
        | file d =>
          by_cases hs2 : rp ++ [name] ∈ faults
          · rw [syncItems_fault_file_file_r hf hs1 hs2]
            exact ⟨by simp, by simp⟩
          by_cases hmd : calculate_md5 c = calculate_md5 d
          · rw [syncItems_file_skip hf hs1 hs2 hmd]
            exact tailShape res
          · rw [syncItems_file_copy hf hs1 hs2 hmd]
            obtain ⟨ho, hw⟩ := tailShape (updateEntry res name (FS.file c))
            refine ⟨?_, ?_⟩
            · intro op hop
              rcases List.mem_cons.mp hop with hop | hop
              · exact ⟨name, [], List.mem_cons_self _ _, by rw [hop]; rfl⟩
              · exact ho op hop
            · intro w hw2
              rcases List.mem_cons.mp hw2 with hw2 | hw2
              · exact ⟨name, [], List.mem_cons_self _ _, by rw [hw2]; rfl⟩
              · exact hw w hw2

theorem sync_shape : ∀ (src rep : FS) (sp rp : FsPath)
    (faults : List FsPath),
    (∀ op ∈ (sync faults src rep sp rp).log,
      ∃ m t, Op.path op = rp ++ m :: t) ∧
    (∀ w ∈ (sync faults src rep sp rp).writes,
      ∃ m t, Write.target w = rp ++ m :: t) := by
  intro src
  induction src using FS.ind2 with
  | hfile c =>
    intro rep sp rp faults
    by_cases h : sp ∈ faults
    · rw [sync_eq_faultS h]; exact ⟨by simp, by simp⟩
    · rw [sync_eq_file h]; exact ⟨by simp, by simp⟩
  | hdir es ihm =>
    intro rep sp rp faults
    by_cases h1 : sp ∈ faults
    · rw [sync_eq_faultS h1]; exact ⟨by simp, by simp⟩
    by_cases h2 : rp ∈ faults
    · rw [sync_eq_faultR h1 h2]; exact ⟨by simp, by simp⟩
    cases rep with
    | file d => rw [sync_eq_repFile h1 h2]; exact ⟨by simp, by simp⟩
    | dir res =>
      have hsub : SubShape faults es :=
        fun p hp rep' sp' rp' => ihm p hp rep' sp' rp' faults
      cases hi : (syncItems faults es res sp rp).err with
      | some e =>
        rw [sync_eq_dir_err h1 h2 hi]
        obtain ⟨ho, hw⟩ := syncItems_shape_of es res hsub
        refine ⟨?_, ?_⟩
        · intro op hop
          obtain ⟨m, t, _, hp⟩ := ho op hop
          exact ⟨m, t, hp⟩
        · intro w hw2
          obtain ⟨m, t, _, hp⟩ := hw w hw2
          exact ⟨m, t, hp⟩
      | none =>
        rw [sync_eq_dir_ok h1 h2 hi]
        obtain ⟨ho1, hw1⟩ := syncItems_shape_of es res hsub
        obtain ⟨ho2, hw2⟩ := @prune_shape rp faults (keys res) (keys es)
          ((syncItems faults es res sp rp).entries)
        refine ⟨?_, ?_⟩
        · intro op hop
          rcases List.mem_append.mp hop with hop | hop
          · obtain ⟨m, t, _, hp⟩ := ho1 op hop
            exact ⟨m, t, hp⟩
          · obtain ⟨m, _, _, hp⟩ := ho2 op hop
            rcases hp with hp | hp <;> exact ⟨m, [], by rw [hp]; rfl⟩
        · intro w hw3
          rcases List.mem_append.mp hw3 with hw3 | hw3
          · obtain ⟨m, t, _, hp⟩ := hw1 w hw3
            exact ⟨m, t, hp⟩
          · obtain ⟨m, _, _, hp⟩ := hw2 w hw3
            exact ⟨m, [], by rw [hp]⟩

/-- The entry-loop shape fact, with the recursion discharged. -/
theorem syncItems_shape {faults : List FsPath}
    {items res : List (String × FS)} {sp rp : FsPath} :
    ItemsShape items (syncItems faults items res sp rp) rp :=
  syncItems_shape_of items res fun p _ rep' sp' rp' =>
    sync_shape p.2 rep' sp' rp' faults

/-! ### Path and frame helpers -/

theorem path_head_eq {rp : FsPath} {m m' : String} {t t' : List String}
    (h : rp ++ m :: t = rp ++ m' :: t') : m = m' := by
  have h2 : m :: t = m' :: t' := List.append_cancel_left h
  injection h2 with h3 _

theorem path_one_ne {rp : FsPath} {m m' : String} {t : List String} :
    rp ++ [m] = rp ++ m' :: t → m = m' ∧ t = [] := by
  intro h
  have h2 : [m] = m' :: t := List.append_cancel_left h
  injection h2 with h3 h4
  exact ⟨h3, h4.symm⟩

/-- No operation of the entry loop names a path `rp ++ [n]` when `n` is not
one of the processed names. -/
theorem itemsShape_not_log {items : List (String × FS)} {r : ItemsOut}
    {rp : FsPath} {n : String} (h : ItemsShape items r rp)
    (hn : n ∉ keys items) {op : Op} (hp : Op.path op = rp ++ [n]) :
    op ∉ r.log := by
  intro hmem
  obtain ⟨m, t, hm, hpath⟩ := h.1 op hmem
  rw [hp] at hpath
  obtain ⟨he, _⟩ := path_one_ne hpath
  exact hn (he ▸ hm)

/-- No operation of a recursive call rooted at `rp ++ [x]` names a path of
the form `rp ++ [n]`: sub-call paths have at least two extra components. -/
theorem sub_log_long {faults : List FsPath} {src rep : FS} {sp rp : FsPath}
    {x : String} {op : Op} {n : String}
    (hmem : op ∈ (sync faults src rep sp (rp ++ [x])).log)
    (hp : Op.path op = rp ++ [n]) : False := by
  obtain ⟨m, t, hpath⟩ := (sync_shape src rep sp (rp ++ [x]) faults).1 op hmem
  rw [hp, List.append_assoc] at hpath
  have h2 : [n] = [x] ++ m :: t := List.append_cancel_left hpath
  simp at h2

/-- Entry-loop frame: a name outside the processed listing keeps its
original binding, whatever the outcome. -/
theorem syncItems_frame {faults : List FsPath} {sp rp : FsPath} :
    ∀ (items res : List (String × FS)) (n : String), n ∉ keys items →
      findEntry (syncItems faults items res sp rp).entries n =
        findEntry res n := by
  intro items
  induction items with
  | nil => intro res n _; rw [syncItems_nil]
  | cons hd rest ih =>
    obtain ⟨name, sEntry⟩ := hd
    intro res n hn
    have hne : n ≠ name := fun he => hn (he ▸ List.mem_cons_self _ _)
    have hnr : n ∉ keys rest := fun hc => hn (List.mem_cons_of_mem _ hc)
    have happ : ∀ e : FS, findEntry (res ++ [(name, e)]) n =
        findEntry res n := by
      intro e
      rcases hr : findEntry res n with _ | v
      · rw [findEntry_append_right hr]
        simp [findEntry, Ne.symm hne, hr]
      · exact findEntry_append_left hr
    cases sEntry with
    | dir ds =>
      rcases hf : findEntry res name with _ | rEntry
      · by_cases hs1 : sp ++ [name] ∈ faults
        · rw [syncItems_fault_dir_new_s hf hs1]
        by_cases hs2 : rp ++ [name] ∈ faults
        · rw [syncItems_fault_dir_new_r hf hs1 hs2]
        rw [syncItems_dir_new hf hs1 hs2]
        simp only
        rw [ih _ n hnr, happ]
      · cases hs : (sync faults (.dir ds) rEntry (sp ++ [name])
            (rp ++ [name])).err with
        | some e =>
          rw [syncItems_dir_sub_err hf hs]
          simp only
          exact findEntry_updateEntry_ne _ hne
        | none =>
          rw [syncItems_dir_sub_ok hf hs]
          simp only
          rw [ih _ n hnr, findEntry_updateEntry_ne _ hne]
    | file c =>
      rcases hf : findEntry res name with _ | rEntry
      · by_cases hs1 : sp ++ [name] ∈ faults
        · rw [syncItems_fault_file_new_s hf hs1]
        by_cases hs2 : rp ++ [name] ∈ faults
        · rw [syncItems_fault_file_new_r hf hs1 hs2]
        rw [syncItems_file_new hf hs1 hs2]
        simp only
        rw [ih _ n hnr, happ]
      · by_cases hs1 : sp ++ [name] ∈ faults
        · rw [syncItems_fault_file_some_s hf hs1]
        cases rEntry with
        | dir ds2 => rw [syncItems_file_mismatch hf hs1]
        | file d =>
          by_cases hs2 : rp ++ [name] ∈ faults
          · rw [syncItems_fault_file_file_r hf hs1 hs2]
          by_cases hmd : calculate_md5 c = calculate_md5 d
          · rw [syncItems_file_skip hf hs1 hs2 hmd]
            exact ih _ n hnr
          · rw [syncItems_file_copy hf hs1 hs2 hmd]
            simp only
            rw [ih _ n hnr, findEntry_updateEntry_ne _ hne]

/-- Pruning frame: a name of the captured source listing keeps its binding
through the pruning loop. -/
theorem prune_frame {faults : List FsPath} {rp : FsPath} :
    ∀ (rNames sNames : List String) (entries : List (String × FS))
      (n : String), n ∈ sNames →
      findEntry (prune faults rNames sNames entries rp).entries n =
        findEntry entries n := by
  intro rNames
  induction rNames with
  | nil => intro sNames entries n _; rw [prune_nil]
  | cons item rest ih =>
    intro sNames entries n hn
    by_cases hsk : item ∈ sNames
    · rw [prune_skip hsk]
      exact ih sNames entries n hn
    · have hne : item ≠ n := fun he => hsk (he ▸ hn)
      rcases hf : findEntry entries item with _ | v
      · rw [prune_missing hsk hf]
      · by_cases hft : rp ++ [item] ∈ faults
        · cases v with
          | dir ds => rw [prune_dir_fault hsk hf hft]
          | file d => rw [prune_file_fault hsk hf hft]
        · have herase : findEntry (eraseEntry entries item) n =
              findEntry entries n := findEntry_eraseEntry_ne (Ne.symm hne)
          cases v with
          | dir ds =>
            rw [prune_dir hsk hf hft]
            simp only
            rw [ih sNames _ n hn, herase]
          | file d =>
            rw [prune_file hsk hf hft]
            simp only
            rw [ih sNames _ n hn, herase]

/-! ### Copy minimality of the file branch -/

theorem syncItems_copy_iff {sp rp : FsPath} :
    ∀ (items res : List (String × FS)) (name : String) (c d : Bytes),
      nodupKeys (keys items) = true →
      (name, FS.file c) ∈ items →
      findEntry res name = some (.file d) →
      (calculate_md5 c = calculate_md5 d →
        Op.fileCopied (rp ++ [name]) ∉ (syncItems [] items res sp rp).log) ∧
      ((syncItems [] items res sp rp).err = none →
        (Op.fileCopied (rp ++ [name]) ∈ (syncItems [] items res sp rp).log ↔
          calculate_md5 c ≠ calculate_md5 d)) := by
  intro items
  induction items with
  | nil =>
    intro res name c d _ hmem _
    simp at hmem
  | cons hd rest ih =>
    obtain ⟨hname, hEntry⟩ := hd
    intro res name c d hnd hmem hf
    rw [keys_cons, nodupKeys_cons] at hnd
    rcases List.mem_cons.mp hmem with hhd | htl
    · -- the head is the file in question
      obtain ⟨he1, he2⟩ := Prod.mk.injEq .. ▸ hhd
      subst he1
      subst he2
      have tailFree : ∀ res',
          Op.fileCopied (rp ++ [name]) ∉
            (syncItems [] rest res' sp rp).log := by
        intro res'
        exact itemsShape_not_log syncItems_shape hnd.1 rfl
      by_cases hmd : calculate_md5 c = calculate_md5 d
      · rw [syncItems_file_skip hf (List.not_mem_nil _) (List.not_mem_nil _)
          hmd]
        refine ⟨fun _ => tailFree res, fun _ => ?_⟩
        constructor
        · intro hin
          exact absurd hin (tailFree res)
        · intro hne
          exact absurd hmd hne
      · rw [syncItems_file_copy hf (List.not_mem_nil _) (List.not_mem_nil _)
          hmd]
        refine ⟨fun he => absurd he hmd, fun _ => ?_⟩
        simp only
        exact ⟨fun _ => hmd, fun _ => List.mem_cons_self _ _⟩
    · -- the file in question sits in the tail
      have hnamek : name ∈ keys rest := List.mem_map_of_mem Prod.fst htl
      have hne : hname ≠ name := fun he => hnd.1 (he ▸ hnamek)
      have contStep : ∀ (L1 : List Op) (res' : List (String × FS)),
          (∀ op ∈ L1, op ≠ Op.fileCopied (rp ++ [name])) →
          findEntry res' name = some (.file d) →
          ∀ (er : Option SyncError),
          er = (syncItems [] rest res' sp rp).err →
          (calculate_md5 c = calculate_md5 d →
            Op.fileCopied (rp ++ [name]) ∉
              L1 ++ (syncItems [] rest res' sp rp).log) ∧
          (er = none →
            (Op.fileCopied (rp ++ [name]) ∈
                L1 ++ (syncItems [] rest res' sp rp).log ↔
              calculate_md5 c ≠ calculate_md5 d)) := by
        intro L1 res' hL1 hf' er her
        obtain ⟨ha, hb⟩ := ih res' name c d hnd.2 htl hf'
        have hnotin : Op.fileCopied (rp ++ [name]) ∈ L1 → False :=
          fun hx => hL1 _ hx rfl
        constructor
        · intro hmd hin
          rcases List.mem_append.mp hin with hin | hin
          · exact hnotin hin
          · exact ha hmd hin
        · intro herr
          rw [List.mem_append]
          constructor
          · intro h
            rcases h with h | h
            · exact absurd h hnotin
            · exact (hb (her ▸ herr)).mp h
          · intro h
            exact Or.inr ((hb (her ▸ herr)).mpr h)
      have headCreated : ∀ x, Op.dirCreated x ≠ Op.fileCopied (rp ++ [name]) :=
        fun x h => Op.noConfusion h
      have headCopied : Op.fileCopied (rp ++ [hname]) ≠
          Op.fileCopied (rp ++ [name]) := by
        intro h
        injection h with h2
        exact hne (path_one_ne h2).1
      cases hEntry with
      | dir ds =>
        rcases hfh : findEntry res hname with _ | rEntry
        · rw [syncItems_dir_new hfh (List.not_mem_nil _) (List.not_mem_nil _)]
          simp only
          exact contStep [Op.dirCreated (rp ++ [hname])] _
            (by intro op hop; simp at hop; rw [hop]; exact headCreated _)
            (findEntry_append_left hf) _ rfl
        · cases hs : (sync [] (.dir ds) rEntry (sp ++ [hname])
              (rp ++ [hname])).err with
          | some e =>
            rw [syncItems_dir_sub_err hfh hs]
            simp only
            refine ⟨fun _ hin => sub_log_long hin rfl, fun herr => ?_⟩
            simp at herr
          | none =>
            rw [syncItems_dir_sub_ok hfh hs]
            simp only
            exact contStep
              (sync [] (.dir ds) rEntry (sp ++ [hname]) (rp ++ [hname])).log _
              (fun op hop he => sub_log_long hop
                (show Op.path op = rp ++ [name] by rw [he]; rfl))
              (by rw [findEntry_updateEntry_ne _ (Ne.symm hne)]; exact hf)
              _ rfl
      | file c2 =>
        rcases hfh : findEntry res hname with _ | rEntry
        · rw [syncItems_file_new hfh (List.not_mem_nil _) (List.not_mem_nil _)]
          simp only
          exact contStep [Op.fileCopied (rp ++ [hname])] _
            (by intro op hop; simp at hop; rw [hop]; exact headCopied)
            (findEntry_append_left hf) _ rfl
        · cases rEntry with
          | dir ds2 =>
            rw [syncItems_file_mismatch hfh (List.not_mem_nil _)]
            refine ⟨fun _ hin => ?_, fun herr => ?_⟩
            · simp at hin
            · simp at herr
          | file d2 =>
            by_cases hmd2 : calculate_md5 c2 = calculate_md5 d2
            · rw [syncItems_file_skip hfh (List.not_mem_nil _)
                (List.not_mem_nil _) hmd2]
              obtain ⟨ha, hb⟩ := ih res name c d hnd.2 htl hf
              exact ⟨ha, hb⟩
            · rw [syncItems_file_copy hfh (List.not_mem_nil _)
                (List.not_mem_nil _) hmd2]
              simp only
              exact contStep [Op.fileCopied (rp ++ [hname])] _
                (by intro op hop; simp at hop; rw [hop]; exact headCopied)
                (by rw [findEntry_updateEntry_ne _ (Ne.symm hne)]; exact hf)
                _ rfl

/-! ### A directory new to the replica is deep-copied and left alone -/

theorem syncItems_newdir {sp rp : FsPath} :
    ∀ (items res : List (String × FS)) (name : String)
      (ds : List (String × FS)),
      nodupKeys (keys items) = true →
      (name, FS.dir ds) ∈ items →
      findEntry res name = none →
      (syncItems [] items res sp rp).err = none →
      findEntry (syncItems [] items res sp rp).entries name =
        some (.dir ds) ∧
      ∀ op ∈ (syncItems [] items res sp rp).log,
        (∃ t, Op.path op = rp ++ name :: t) →
        op = .dirCreated (rp ++ [name]) := by
  intro items
  induction items with
  | nil =>
    intro res name ds _ hmem _ _
    simp at hmem
  | cons hd rest ih =>
    obtain ⟨hname, hEntry⟩ := hd
    intro res name ds hnd hmem hf herr
    rw [keys_cons, nodupKeys_cons] at hnd
    rcases List.mem_cons.mp hmem with hhd | htl
    · -- the head is the new directory
      obtain ⟨he1, he2⟩ := Prod.mk.injEq .. ▸ hhd
      subst he1
      subst he2
      rw [syncItems_dir_new hf (List.not_mem_nil _) (List.not_mem_nil _)]
        at herr ⊢
      simp only at herr ⊢
      constructor
      · rw [syncItems_frame _ _ _ hnd.1, findEntry_append_right hf]
        simp [findEntry]
      · intro op hop hpath
        rcases List.mem_cons.mp hop with hop | hop
        · exact hop
        · exfalso
          obtain ⟨m, t', hm, hp⟩ := syncItems_shape.1 op hop
          obtain ⟨t, ht⟩ := hpath
          rw [ht] at hp
          exact hnd.1 (path_head_eq hp ▸ hm)
    · -- the new directory sits in the tail
      have hnamek : name ∈ keys rest := List.mem_map_of_mem Prod.fst htl
      have hne : hname ≠ name := fun he => hnd.1 (he ▸ hnamek)
      have happ : ∀ e : FS, findEntry (res ++ [(hname, e)]) name = none := by
        intro e
        rw [findEntry_append_right hf]
        simp [findEntry, hne]
      have headDirect : ∀ (x : Op), Op.path x = rp ++ [hname] →
          (∃ t, Op.path x = rp ++ name :: t) → False := by
        intro x hx ⟨t, ht⟩
        rw [hx] at ht
        exact hne (path_one_ne ht).1
      have headSub : ∀ {src' rep' : FS} {op : Op},
          op ∈ (sync [] src' rep' (sp ++ [hname]) (rp ++ [hname])).log →
          (∃ t, Op.path op = rp ++ name :: t) → False := by
        intro src' rep' op hop ⟨t, ht⟩
        obtain ⟨m, t', hp⟩ :=
          (sync_shape src' rep' (sp ++ [hname]) (rp ++ [hname]) []).1 op hop
        rw [ht, List.append_assoc] at hp
        have h2 : name :: t = [hname] ++ m :: t' := List.append_cancel_left hp
        simp at h2
        exact hne h2.1.symm
      cases hEntry with
      | dir ds2 =>
        rcases hfh : findEntry res hname with _ | rEntry
        · rw [syncItems_dir_new hfh (List.not_mem_nil _) (List.not_mem_nil _)]
            at herr ⊢
          simp only at herr ⊢
          obtain ⟨h1, h2⟩ := ih _ name ds hnd.2 htl (happ _) herr
          refine ⟨h1, ?_⟩
          intro op hop hpath
          rcases List.mem_cons.mp hop with hop | hop
          · exfalso
            exact headDirect op (by rw [hop]; rfl) (hop ▸ hpath)
          · exact h2 op hop hpath
        · cases hs : (sync [] (.dir ds2) rEntry (sp ++ [hname])
              (rp ++ [hname])).err with
          | some e =>
            rw [syncItems_dir_sub_err hfh hs] at herr
            simp at herr
          | none =>
            rw [syncItems_dir_sub_ok hfh hs] at herr ⊢
            simp only at herr ⊢
            have hf1 : findEntry (updateEntry res hname
                (sync [] (.dir ds2) rEntry (sp ++ [hname])
                  (rp ++ [hname])).rep) name = none := by
              rw [findEntry_updateEntry_ne _ (Ne.symm hne)]
              exact hf
            obtain ⟨h1, h2⟩ := ih _ name ds hnd.2 htl hf1 herr
            refine ⟨h1, ?_⟩
            intro op hop hpath
            rcases List.mem_append.mp hop with hop | hop
            · exact absurd hpath (fun hx => headSub hop hx)
            · exact h2 op hop hpath
      | file c2 =>
        rcases hfh : findEntry res hname with _ | rEntry
        · rw [syncItems_file_new hfh (List.not_mem_nil _) (List.not_mem_nil _)]
            at herr ⊢
          simp only at herr ⊢
          obtain ⟨h1, h2⟩ := ih _ name ds hnd.2 htl (happ _) herr
          refine ⟨h1, ?_⟩
          intro op hop hpath
          rcases List.mem_cons.mp hop with hop | hop
          · exfalso
            exact headDirect op (by rw [hop]; rfl) (hop ▸ hpath)
          · exact h2 op hop hpath
        · cases rEntry with
          | dir ds3 =>
            rw [syncItems_file_mismatch hfh (List.not_mem_nil _)] at herr
            simp at herr
          | file d2 =>
            by_cases hmd : calculate_md5 c2 = calculate_md5 d2
            · rw [syncItems_file_skip hfh (List.not_mem_nil _)
                (List.not_mem_nil _) hmd] at herr ⊢
              exact ih _ name ds hnd.2 htl hf herr
            · rw [syncItems_file_copy hfh (List.not_mem_nil _)
                (List.not_mem_nil _) hmd] at herr ⊢
              simp only at herr ⊢
              have hf1 : findEntry (updateEntry res hname (FS.file c2))
                  name = none := by
                rw [findEntry_updateEntry_ne _ (Ne.symm hne)]
                exact hf
              obtain ⟨h1, h2⟩ := ih _ name ds hnd.2 htl hf1 herr
              refine ⟨h1, ?_⟩
              intro op hop hpath
              rcases List.mem_cons.mp hop with hop | hop
              · exfalso
                exact headDirect op (by rw [hop]; rfl) (hop ▸ hpath)
              · exact h2 op hop hpath

/-! ### Kind mismatches abort the pass and leave the entry unchanged -/

theorem syncItems_mismatch {sp rp : FsPath} :
    ∀ (items res : List (String × FS)) (name : String) (sEntry rEntry : FS),
      nodupKeys (keys items) = true →
      (name, sEntry) ∈ items →
      findEntry res name = some rEntry →
      (FS.isDir sEntry = true ∧ FS.isDir rEntry = false ∨
       FS.isDir sEntry = false ∧ FS.isDir rEntry = true) →
      (syncItems [] items res sp rp).err ≠ none ∧
      findEntry (syncItems [] items res sp rp).entries name =
        some rEntry := by
  intro items
  induction items with
  | nil =>
    intro res name sEntry rEntry _ hmem _ _
    simp at hmem
  | cons hd rest ih =>
    obtain ⟨hname, hEntry⟩ := hd
    intro res name sEntry rEntry hnd hmem hf hkind
    rw [keys_cons, nodupKeys_cons] at hnd
    rcases List.mem_cons.mp hmem with hhd | htl
    · -- the head is the mismatched pair
      obtain ⟨he1, he2⟩ := Prod.mk.injEq .. ▸ hhd
      subst he1
      subst he2
      rcases hkind with ⟨h1, h2⟩ | ⟨h1, h2⟩
      · -- directory in source, non-directory in replica
        cases sEntry with
        | file c => exact absurd h1 (by simp [FS.isDir])
        | dir ds =>
          cases rEntry with
          | dir ds2 => exact absurd h2 (by simp [FS.isDir])
          | file d =>
            have hsub : sync [] (FS.dir ds) (FS.file d) (sp ++ [name])
                (rp ++ [name]) =
                ⟨.file d, [], [], some (.readError (rp ++ [name]))⟩ :=
              sync_eq_repFile (List.not_mem_nil _) (List.not_mem_nil _)
            have hs : (sync [] (FS.dir ds) (FS.file d) (sp ++ [name])
                (rp ++ [name])).err = some (.readError (rp ++ [name])) := by
              rw [hsub]
            rw [syncItems_dir_sub_err hf hs]
            simp only
            refine ⟨by simp, ?_⟩
            rw [hsub]
            exact findEntry_updateEntry_self _ hf
      · -- file in source, directory in replica
        cases sEntry with
        | dir ds => exact absurd h1 (by simp [FS.isDir])
        | file c =>
          cases rEntry with
          | file d => exact absurd h2 (by simp [FS.isDir])
          | dir ds2 =>
            rw [syncItems_file_mismatch hf (List.not_mem_nil _)]
            exact ⟨by simp, hf⟩
    · -- the mismatched pair sits in the tail
      have hnamek : name ∈ keys rest := List.mem_map_of_mem Prod.fst htl
      have hne : hname ≠ name := fun he => hnd.1 (he ▸ hnamek)
      have happ : ∀ e : FS, findEntry (res ++ [(hname, e)]) name =
          some rEntry := fun e => findEntry_append_left hf
      have hupd : ∀ v : FS, findEntry (updateEntry res hname v) name =
          some rEntry := by
        intro v
        rw [findEntry_updateEntry_ne _ (Ne.symm hne)]
        exact hf
      cases hEntry with
      | dir ds2 =>
        rcases hfh : findEntry res hname with _ | rEntry2
        · rw [syncItems_dir_new hfh (List.not_mem_nil _) (List.not_mem_nil _)]
          simp only
          obtain ⟨h1, h2⟩ := ih _ name sEntry rEntry hnd.2 htl (happ _) hkind
          exact ⟨h1, h2⟩
        · cases hs : (sync [] (.dir ds2) rEntry2 (sp ++ [hname])
              (rp ++ [hname])).err with
          | some e =>
            rw [syncItems_dir_sub_err hfh hs]
            simp only
            exact ⟨by simp, hupd _⟩
          | none =>
            rw [syncItems_dir_sub_ok hfh hs]
            simp only
            exact ih _ name sEntry rEntry hnd.2 htl (hupd _) hkind
      | file c2 =>
        rcases hfh : findEntry res hname with _ | rEntry2
        · rw [syncItems_file_new hfh (List.not_mem_nil _) (List.not_mem_nil _)]
          simp only
          exact ih _ name sEntry rEntry hnd.2 htl (happ _) hkind
        · cases rEntry2 with
          | dir ds3 =>
            rw [syncItems_file_mismatch hfh (List.not_mem_nil _)]
            exact ⟨by simp, hf⟩
          | file d2 =>
            by_cases hmd : calculate_md5 c2 = calculate_md5 d2
            · rw [syncItems_file_skip hfh (List.not_mem_nil _)
                (List.not_mem_nil _) hmd]
              exact ih _ name sEntry rEntry hnd.2 htl hf hkind
            · rw [syncItems_file_copy hfh (List.not_mem_nil _)
                (List.not_mem_nil _) hmd]
              simp only
              exact ih _ name sEntry rEntry hnd.2 htl (hupd _) hkind

/-! ### Deletion counting in the pruning loop -/

/-- Look a name up directly below the root of a tree. -/
def FS.lookup : FS → String → Option FS
  | .file _, _ => none
  | .dir es, n => findEntry es n

theorem path_sing_inj {rp : FsPath} {a b : String}
    (h : rp ++ [a] = rp ++ [b]) : a = b :=
  (path_one_ne h).1

theorem prune_count {rp : FsPath} :
    ∀ (rNames sNames : List String) (entries : List (String × FS))
      (n : String),
      nodupKeys rNames = true →
      n ∈ rNames → n ∉ sNames →
      (prune [] rNames sNames entries rp).err = none →
      (∀ ds, findEntry entries n = some (.dir ds) →
        (prune [] rNames sNames entries rp).log.count
          (.dirRemoved (rp ++ [n])) = 1 ∧
        (prune [] rNames sNames entries rp).log.count
          (.fileRemoved (rp ++ [n])) = 0) ∧
      (∀ d, findEntry entries n = some (.file d) →
        (prune [] rNames sNames entries rp).log.count
          (.fileRemoved (rp ++ [n])) = 1 ∧
        (prune [] rNames sNames entries rp).log.count
          (.dirRemoved (rp ++ [n])) = 0) := by
  intro rNames
  induction rNames with
  | nil =>
    intro sNames entries n _ hn _ _
    simp at hn
  | cons item rest ih =>
    intro sNames entries n hnd hn hns herr
    rw [nodupKeys_cons] at hnd
    by_cases hsk : item ∈ sNames
    · have hnr : n ∈ rest := by
        rcases List.mem_cons.mp hn with hn | hn
        · exact absurd (hn ▸ hsk) hns
        · exact hn
      rw [prune_skip hsk] at herr ⊢
      exact ih sNames entries n hnd.2 hnr hns herr
    · rcases hfi : findEntry entries item with _ | v
      · rw [prune_missing hsk hfi] at herr
        simp at herr
      · by_cases hin : item = n
        · subst hin
          have restZero : ∀ (entries' : List (String × FS)) (op : Op),
              Op.path op = rp ++ [item] →
              op ∉ (prune [] rest sNames entries' rp).log := by
            intro entries' op hp hmem
            obtain ⟨m, hm, _, hop⟩ := prune_shape.1 op hmem
            have him : item = m := by
              rcases hop with hop | hop <;>
              · rw [hop] at hp
                simp only [Op.path] at hp
                exact (path_sing_inj hp).symm
            exact hnd.1 (him ▸ hm)
          cases v with
          | dir ds =>
            rw [prune_dir hsk hfi (List.not_mem_nil _)] at herr ⊢
            simp only at herr ⊢
            constructor
            · intro ds2 _
              constructor
              · rw [List.count_cons, List.count_eq_zero.mpr
                  (restZero _ (Op.dirRemoved (rp ++ [item])) rfl)]
                simp
              · rw [List.count_cons, List.count_eq_zero.mpr
                  (restZero _ (Op.fileRemoved (rp ++ [item])) rfl)]
                simp
            · intro d hd
              rw [hfi] at hd
              exact absurd hd (by simp)
          | file d =>
            rw [prune_file hsk hfi (List.not_mem_nil _)] at herr ⊢
            simp only at herr ⊢
            constructor
            · intro ds hd
              rw [hfi] at hd
              exact absurd hd (by simp)
            · intro d2 _
              constructor
              · rw [List.count_cons, List.count_eq_zero.mpr
                  (restZero _ (Op.fileRemoved (rp ++ [item])) rfl)]
                simp
              · rw [List.count_cons, List.count_eq_zero.mpr
                  (restZero _ (Op.dirRemoved (rp ++ [item])) rfl)]
                simp
        · have hnr : n ∈ rest := by
            rcases List.mem_cons.mp hn with hn | hn
            · exact absurd hn.symm hin
            · exact hn
          have hfe : findEntry (eraseEntry entries item) n =
              findEntry entries n := findEntry_eraseEntry_ne
                fun he => hin he.symm
          have hin' : ¬n = item := fun h => hin h.symm
          cases v with
          | dir ds =>
            rw [prune_dir hsk hfi (List.not_mem_nil _)] at herr ⊢
            simp only at herr ⊢
            obtain ⟨ha, hb⟩ :=
              ih sNames (eraseEntry entries item) n hnd.2 hnr hns herr
            constructor
            · intro ds2 hd
              obtain ⟨h1, h2⟩ := ha ds2 (by rw [hfe]; exact hd)
              constructor
              · rw [List.count_cons, h1]
                simp [hin, hin']
              · rw [List.count_cons, h2]
                simp [hin, hin']
            · intro d hd
              obtain ⟨h1, h2⟩ := hb d (by rw [hfe]; exact hd)
              constructor
              · rw [List.count_cons, h1]
                simp [hin, hin']
              · rw [List.count_cons, h2]
                simp [hin, hin']
          | file d =>
            rw [prune_file hsk hfi (List.not_mem_nil _)] at herr ⊢
            simp only at herr ⊢
            obtain ⟨ha, hb⟩ :=
              ih sNames (eraseEntry entries item) n hnd.2 hnr hns herr
            constructor
            · intro ds2 hd
              obtain ⟨h1, h2⟩ := ha ds2 (by rw [hfe]; exact hd)
              constructor
              · rw [List.count_cons, h1]
                simp [hin, hin']
              · rw [List.count_cons, h2]
                simp [hin, hin']
            · intro d2 hd
              obtain ⟨h1, h2⟩ := hb d2 (by rw [hfe]; exact hd)
              constructor
              · rw [List.count_cons, h1]
                simp [hin, hin']
              · rw [List.count_cons, h2]
                simp [hin, hin']

/-! ### Abort-and-propagate: a faulty run against the fault-free run -/

/-- `initSeg a b`: `a` is an initial segment of `b`. -/
def initSeg {α : Type} (a b : List α) : Prop :=
  ∃ t, a ++ t = b

theorem initSeg_refl {α : Type} (l : List α) : initSeg l l :=
  ⟨[], List.append_nil l⟩

theorem initSeg_nil {α : Type} (l : List α) : initSeg [] l :=
  ⟨l, rfl⟩

theorem initSeg_extend {α : Type} {a b : List α} (c : List α)
    (h : initSeg a b) : initSeg a (b ++ c) := by
  obtain ⟨t, ht⟩ := h
  exact ⟨t ++ c, by rw [← List.append_assoc, ht]⟩

theorem initSeg_cons2 {α : Type} {a b : List α} (x : α) (h : initSeg a b) :
    initSeg (x :: a) (x :: b) := by
  obtain ⟨t, ht⟩ := h
  exact ⟨t, by rw [List.cons_append, ht]⟩

theorem initSeg_append2 {α : Type} {a b : List α} (c : List α)
    (h : initSeg a b) : initSeg (c ++ a) (c ++ b) := by
  obtain ⟨t, ht⟩ := h
  exact ⟨t, by rw [List.append_assoc, ht]⟩

/-- A faulty loop run refines the fault-free run: it is equal, or it
reports an error having produced only initial segments of the fault-free
log and writes. -/
def RefItems (a b : ItemsOut) : Prop :=
  a = b ∨ (a.err ≠ none ∧ initSeg a.log b.log ∧ initSeg a.writes b.writes)

/-- A faulty pass refines the fault-free pass, in the same sense. -/
def RefSync (a b : SyncOut) : Prop :=
  a = b ∨ (a.err ≠ none ∧ initSeg a.log b.log ∧ initSeg a.writes b.writes)

theorem prune_ref {faults : List FsPath} {rp : FsPath} :
    ∀ (rNames sNames : List String) (entries : List (String × FS)),
      RefItems (prune faults rNames sNames entries rp)
        (prune [] rNames sNames entries rp) := by
  intro rNames
  induction rNames with
  | nil =>
    intro sNames entries
    left
    rfl
  | cons item rest ih =>
    intro sNames entries
    by_cases hsk : item ∈ sNames
    · rw [prune_skip hsk, prune_skip hsk]
      exact ih sNames entries
    · rcases hf : findEntry entries item with _ | v
      · rw [prune_missing hsk hf, prune_missing hsk hf]
        left
        rfl
      · by_cases hft : rp ++ [item] ∈ faults
        · cases v with
          | dir ds =>
            rw [prune_dir_fault hsk hf hft,
              prune_dir hsk hf (List.not_mem_nil _)]
            right
            exact ⟨by simp, initSeg_nil _, initSeg_nil _⟩
          | file d =>
            rw [prune_file_fault hsk hf hft,
              prune_file hsk hf (List.not_mem_nil _)]
            right
            exact ⟨by simp, initSeg_nil _, initSeg_nil _⟩
        · cases v with
          | dir ds =>
            rw [prune_dir hsk hf hft, prune_dir hsk hf (List.not_mem_nil _)]
            rcases ih sNames (eraseEntry entries item) with he | ⟨h1, h2, h3⟩
            · rw [he]
              left
              rfl
            · right
              exact ⟨h1, initSeg_cons2 _ h2, initSeg_cons2 _ h3⟩
          | file d =>
            rw [prune_file hsk hf hft, prune_file hsk hf (List.not_mem_nil _)]
            rcases ih sNames (eraseEntry entries item) with he | ⟨h1, h2, h3⟩
            · rw [he]
              left
              rfl
            · right
              exact ⟨h1, initSeg_cons2 _ h2, initSeg_cons2 _ h3⟩

/-- The per-entry refinement hypothesis for recursive calls. -/
def SubRef (faults : List FsPath) (items : List (String × FS)) : Prop :=
  ∀ p ∈ items, ∀ (f : FS) (sp' rp' : FsPath),
    RefSync (sync faults p.2 f sp' rp') (sync [] p.2 f sp' rp')

theorem syncItems_ref_of {faults : List FsPath} {sp rp : FsPath} :
    ∀ (items res : List (String × FS)), SubRef faults items →
      RefItems (syncItems faults items res sp rp)
        (syncItems [] items res sp rp) := by
  intro items
  induction items with
  | nil =>
    intro res _
    left
    rfl
  | cons hd rest ih =>
    obtain ⟨name, sEntry⟩ := hd
    intro res hsub
    have hsubRest : SubRef faults rest :=
      fun p hp => hsub p (List.mem_cons_of_mem _ hp)
    have tailRef : ∀ res', RefItems (syncItems faults rest res' sp rp)
        (syncItems [] rest res' sp rp) := fun res' => ih res' hsubRest
    cases sEntry with
    | dir ds =>
      rcases hf : findEntry res name with _ | rEntry
      · by_cases hs1 : sp ++ [name] ∈ faults
        · rw [syncItems_fault_dir_new_s hf hs1,
            syncItems_dir_new hf (List.not_mem_nil _) (List.not_mem_nil _)]
          right
          exact ⟨by simp, initSeg_nil _, initSeg_nil _⟩
        by_cases hs2 : rp ++ [name] ∈ faults
        · rw [syncItems_fault_dir_new_r hf hs1 hs2,
            syncItems_dir_new hf (List.not_mem_nil _) (List.not_mem_nil _)]
          right
          exact ⟨by simp, initSeg_nil _, initSeg_nil _⟩
        rw [syncItems_dir_new hf hs1 hs2,
          syncItems_dir_new hf (List.not_mem_nil _) (List.not_mem_nil _)]
        rcases tailRef (res ++ [(name, FS.dir ds)]) with he | ⟨h1, h2, h3⟩
        · rw [he]
          left
          rfl
        · right
          exact ⟨h1, initSeg_cons2 _ h2, initSeg_cons2 _ h3⟩
      · rcases hsub (name, FS.dir ds) (List.mem_cons_self _ _) rEntry
            (sp ++ [name]) (rp ++ [name]) with he | ⟨h1, h2, h3⟩
        · cases hi0 : (sync [] (.dir ds) rEntry (sp ++ [name])
              (rp ++ [name])).err with
          | some e =>
            have hif : (sync faults (.dir ds) rEntry (sp ++ [name])
                (rp ++ [name])).err = some e := by rw [he]; exact hi0
            rw [syncItems_dir_sub_err hf hif, syncItems_dir_sub_err hf hi0,
              he]
            left
            rfl
          | none =>
            have hif : (sync faults (.dir ds) rEntry (sp ++ [name])
                (rp ++ [name])).err = none := by rw [he]; exact hi0
            rw [syncItems_dir_sub_ok hf hif, syncItems_dir_sub_ok hf hi0, he]
            rcases tailRef (updateEntry res name
                (sync [] (.dir ds) rEntry (sp ++ [name])
                  (rp ++ [name])).rep) with hte | ⟨t1, t2, t3⟩
            · rw [hte]
              left
              rfl
            · right
              exact ⟨t1, initSeg_append2 _ t2, initSeg_append2 _ t3⟩
        · obtain ⟨ef, hif⟩ := Option.ne_none_iff_exists'.mp h1
          rw [syncItems_dir_sub_err hf hif]
          cases hi0 : (sync [] (.dir ds) rEntry (sp ++ [name])
              (rp ++ [name])).err with
          | some e0 =>
            rw [syncItems_dir_sub_err hf hi0]
            right
            exact ⟨by simp, h2, h3⟩
          | none =>
            rw [syncItems_dir_sub_ok hf hi0]
            right
            exact ⟨by simp, initSeg_extend _ h2, initSeg_extend _ h3⟩
    | file c =>
      rcases hf : findEntry res name with _ | rEntry
      · by_cases hs1 : sp ++ [name] ∈ faults
        · rw [syncItems_fault_file_new_s hf hs1,
            syncItems_file_new hf (List.not_mem_nil _) (List.not_mem_nil _)]
          right
          exact ⟨by simp, initSeg_nil _, initSeg_nil _⟩
        by_cases hs2 : rp ++ [name] ∈ faults
        · rw [syncItems_fault_file_new_r hf hs1 hs2,
            syncItems_file_new hf (List.not_mem_nil _) (List.not_mem_nil _)]
          right
          exact ⟨by simp, initSeg_nil _, initSeg_nil _⟩
        rw [syncItems_file_new hf hs1 hs2,
          syncItems_file_new hf (List.not_mem_nil _) (List.not_mem_nil _)]
        rcases tailRef (res ++ [(name, FS.file c)]) with he | ⟨h1, h2, h3⟩
        · rw [he]
          left
          rfl
        · right
          exact ⟨h1, initSeg_cons2 _ h2, initSeg_cons2 _ h3⟩
      · by_cases hs1 : sp ++ [name] ∈ faults
        · rw [syncItems_fault_file_some_s hf hs1]
          right
          exact ⟨by simp, initSeg_nil _, initSeg_nil _⟩
        cases rEntry with
        | dir ds2 =>
          rw [syncItems_file_mismatch hf hs1,
            syncItems_file_mismatch hf (List.not_mem_nil _)]
          left
          rfl
        | file d =>
          by_cases hs2 : rp ++ [name] ∈ faults
          · rw [syncItems_fault_file_file_r hf hs1 hs2]
            right
            exact ⟨by simp, initSeg_nil _, initSeg_nil _⟩
          by_cases hmd : calculate_md5 c = calculate_md5 d
          · rw [syncItems_file_skip hf hs1 hs2 hmd,
              syncItems_file_skip hf (List.not_mem_nil _)
                (List.not_mem_nil _) hmd]
            exact tailRef res
          · rw [syncItems_file_copy hf hs1 hs2 hmd,
              syncItems_file_copy hf (List.not_mem_nil _)
                (List.not_mem_nil _) hmd]
            rcases tailRef (updateEntry res name (FS.file c)) with
              he | ⟨h1, h2, h3⟩
            · rw [he]
              left
              rfl
            · right
              exact ⟨h1, initSeg_cons2 _ h2, initSeg_cons2 _ h3⟩

theorem sync_ref : ∀ (src rep : FS) (sp rp : FsPath)
    (faults : List FsPath),
    RefSync (sync faults src rep sp rp) (sync [] src rep sp rp) := by
  intro src
  induction src using FS.ind2 with
  | hfile c =>
    intro rep sp rp faults
    by_cases h : sp ∈ faults
    · rw [sync_eq_faultS h, sync_eq_file (List.not_mem_nil _)]
      left
      rfl
    · rw [sync_eq_file h, sync_eq_file (List.not_mem_nil _)]
      left
      rfl
  | hdir es ih =>
    intro rep sp rp faults
    have hsub : SubRef faults es :=
      fun p hp f sp' rp' => ih p hp f sp' rp' faults
    by_cases h1 : sp ∈ faults
    · rw [sync_eq_faultS h1]
      right
      exact ⟨by simp, initSeg_nil _, initSeg_nil _⟩
    by_cases h2 : rp ∈ faults
    · rw [sync_eq_faultR h1 h2]
      right
      exact ⟨by simp, initSeg_nil _, initSeg_nil _⟩
    cases rep with
    | file d =>
      rw [sync_eq_repFile h1 h2,
        sync_eq_repFile (List.not_mem_nil _) (List.not_mem_nil _)]
      left
      rfl
    | dir res =>
      rcases syncItems_ref_of es res hsub with he | ⟨e1, e2, e3⟩
      · cases hi0 : (syncItems [] es res sp rp).err with
        | some e =>
          have hif : (syncItems faults es res sp rp).err = some e := by
            rw [he]; exact hi0
          rw [sync_eq_dir_err h1 h2 hif,
            sync_eq_dir_err (List.not_mem_nil _) (List.not_mem_nil _) hi0, he]
          left
          rfl
        | none =>
          have hif : (syncItems faults es res sp rp).err = none := by
            rw [he]; exact hi0
          rw [sync_eq_dir_ok h1 h2 hif,
            sync_eq_dir_ok (List.not_mem_nil _) (List.not_mem_nil _) hi0, he]
          rcases prune_ref (keys res) (keys es)
              (syncItems [] es res sp rp).entries with pe | ⟨p1, p2, p3⟩
          · rw [pe]
            left
            rfl
          · right
            exact ⟨p1, initSeg_append2 _ p2, initSeg_append2 _ p3⟩
      · obtain ⟨ef, hif⟩ := Option.ne_none_iff_exists'.mp e1
        rw [sync_eq_dir_err h1 h2 hif]
        cases hi0 : (syncItems [] es res sp rp).err with
        | some e0 =>
          rw [sync_eq_dir_err (List.not_mem_nil _) (List.not_mem_nil _) hi0]
          right
          exact ⟨by simp, e2, e3⟩
        | none =>
          rw [sync_eq_dir_ok (List.not_mem_nil _) (List.not_mem_nil _) hi0]
          right
          exact ⟨by simp, initSeg_extend _ e2, initSeg_extend _ e3⟩

/-! ### Termination: fuel bounded by the depth of the source tree -/

theorem itemsGo_eq {faults : List FsPath} {sp rp : FsPath} :
    ∀ (items res : List (String × FS))
      (f : FS → FS → FsPath → FsPath → Option SyncOut),
      (∀ p ∈ items, ∀ (g : FS) (sp' rp' : FsPath),
        f p.2 g sp' rp' = some (sync faults p.2 g sp' rp')) →
      itemsGo f faults items res sp rp =
        some (syncItems faults items res sp rp) := by
  intro items
  induction items with
  | nil =>
    intro res f _
    rfl
  | cons hd rest ih =>
    obtain ⟨name, sEntry⟩ := hd
    intro res f hfunc
    have hfuncRest := fun p hp => hfunc p (List.mem_cons_of_mem _ hp)
    have ihap : ∀ res', itemsGo f faults rest res' sp rp =
        some (syncItems faults rest res' sp rp) :=
      fun res' => ih res' f hfuncRest
    cases sEntry with
    | dir ds =>
      rcases hf : findEntry res name with _ | rEntry
      · by_cases hs1 : sp ++ [name] ∈ faults
        · rw [syncItems_fault_dir_new_s hf hs1]
          simp [itemsGo, hf, hs1]
        by_cases hs2 : rp ++ [name] ∈ faults
        · rw [syncItems_fault_dir_new_r hf hs1 hs2]
          simp [itemsGo, hf, hs1, hs2]
        rw [syncItems_dir_new hf hs1 hs2]
        simp [itemsGo, hf, hs1, hs2, ihap]
      · have hcall : f (FS.dir ds) rEntry (sp ++ [name]) (rp ++ [name]) =
            some (sync faults (FS.dir ds) rEntry (sp ++ [name])
              (rp ++ [name])) :=
          hfunc (name, FS.dir ds) (List.mem_cons_self _ _) rEntry _ _
        cases hs : (sync faults (.dir ds) rEntry (sp ++ [name])
            (rp ++ [name])).err with
        | some e =>
          rw [syncItems_dir_sub_err hf hs]
          simp [itemsGo, hf, hcall, hs]
        | none =>
          rw [syncItems_dir_sub_ok hf hs]
          simp [itemsGo, hf, hcall, hs, ihap]
    | file c =>
      rcases hf : findEntry res name with _ | rEntry
      · by_cases hs1 : sp ++ [name] ∈ faults
        · rw [syncItems_fault_file_new_s hf hs1]
          simp [itemsGo, hf, hs1]
        by_cases hs2 : rp ++ [name] ∈ faults
        · rw [syncItems_fault_file_new_r hf hs1 hs2]
          simp [itemsGo, hf, hs1, hs2]
        rw [syncItems_file_new hf hs1 hs2]
        simp [itemsGo, hf, hs1, hs2, ihap]
      · by_cases hs1 : sp ++ [name] ∈ faults
        · rw [syncItems_fault_file_some_s hf hs1]
          cases rEntry <;> simp [itemsGo, hf, hs1]
        cases rEntry with
        | dir ds2 =>
          rw [syncItems_file_mismatch hf hs1]
          simp [itemsGo, hf, hs1]
        | file d =>
          by_cases hs2 : rp ++ [name] ∈ faults
          · rw [syncItems_fault_file_file_r hf hs1 hs2]
            simp [itemsGo, hf, hs1, hs2]
          by_cases hmd : calculate_md5 c = calculate_md5 d
          · rw [syncItems_file_skip hf hs1 hs2 hmd]
            simp [itemsGo, hf, hs1, hs2, hmd, ihap]
          · rw [syncItems_file_copy hf hs1 hs2 hmd]
            simp [itemsGo, hf, hs1, hs2, hmd, ihap]

theorem syncFuel_eq : ∀ (fuel : Nat) (src rep : FS) (sp rp : FsPath)
    (faults : List FsPath), FS.depth src < fuel →
    syncFuel fuel faults src rep sp rp =
      some (sync faults src rep sp rp) := by
  intro fuel
  induction fuel with
  | zero =>
    intro src rep sp rp faults h
    exact absurd h (Nat.not_lt_zero _)
  | succ k ih =>
    intro src rep sp rp faults hd
    cases src with
    | file c =>
      by_cases h : sp ∈ faults
      · rw [sync_eq_faultS h]
        simp [syncFuel, h]
      · rw [sync_eq_file h]
        simp [syncFuel, h]
    | dir ses =>
      by_cases h1 : sp ∈ faults
      · rw [sync_eq_faultS h1]
        simp [syncFuel, h1]
      by_cases h2 : rp ∈ faults
      · rw [sync_eq_faultR h1 h2]
        cases rep <;> simp [syncFuel, h1, h2]
      cases rep with
      | file d =>
        rw [sync_eq_repFile h1 h2]
        simp [syncFuel, h1, h2]
      | dir res =>
        have hgo : itemsGo (syncFuel k faults) faults ses res sp rp =
            some (syncItems faults ses res sp rp) := by
          apply itemsGo_eq
          intro p hp g sp' rp'
          apply ih
          have h3 : FS.depth p.2 < FS.depth (FS.dir ses) :=
            depth_lt_of_mem hp
          have h4 : FS.depth (FS.dir ses) = depthList ses + 1 := rfl
          rw [h4] at h3 hd
          omega
        cases hi : (syncItems faults ses res sp rp).err with
        | some e =>
          rw [sync_eq_dir_err h1 h2 hi]
          simp [syncFuel, h1, h2, hgo, hi]
        | none =>
          rw [sync_eq_dir_ok h1 h2 hi]
          simp [syncFuel, h1, h2, hgo, hi]

/-! ### Auxiliary claim-level lemmas -/

/-- The pruning loop never logs a copy operation. -/
theorem prune_no_copy {faults : List FsPath} {rNames sNames : List String}
    {entries : List (String × FS)} {rp : FsPath} {x : FsPath} :
    Op.fileCopied x ∉ (prune faults rNames sNames entries rp).log := by
  intro h
  obtain ⟨m, _, _, hop⟩ := prune_shape.1 _ h
  rcases hop with hop | hop <;> exact Op.noConfusion hop

/-- `SubOk` holds everywhere, by the main convergence lemma. -/
theorem subOk_all (items : List (String × FS)) : SubOk items :=
  fun p _ f sp' rp' h1 h2 h3 => sync_main p.2 f sp' rp' h1 h2 h3

/-! ### Example trees (the specification's example scenario) -/

/-- Source listing of the example: `a.txt = "hello"`, `sub/b.txt = "x"`. -/
def sesEx : List (String × FS) :=
  [("a.txt", .file [104, 101, 108, 108, 111]),
   ("sub", .dir [("b.txt", .file [120])])]

/-- Replica listing of the example: `a.txt = "hello"`, `c.txt = "old"`. -/
def resEx : List (String × FS) :=
  [("a.txt", .file [104, 101, 108, 108, 111]),
   ("c.txt", .file [111, 108, 100])]

/-- The example source tree. -/
def srcEx : FS := .dir sesEx

/-- The example replica tree. -/
def repEx : FS := .dir resEx

/-! ### The claims -/

/-- C1: Convergence — for every pair of finite directory trees, if
`sync_folders(source, replica)` completes without error then afterwards the
replica's entry names, the kind of each entry, and the byte content of each
file exactly match the source's at every level, and every name present
under the replica but absent under the source no longer exists under the
replica (all of which `FS.same` states, recursively). -/
theorem C1_convergence (src rep : FS) (sp rp : FsPath)
    (h1 : FS.wf src = true) (h2 : FS.wf rep = true)
    (h3 : (sync [] src rep sp rp).err = none) :
    FS.same src (sync [] src rep sp rp).rep = true :=
  (sync_main src rep sp rp h1 h2 h3).2

theorem C1_convergence_witness :
    FS.wf srcEx = true ∧ FS.wf repEx = true ∧
    (sync [] srcEx repEx ["s"] ["r"]).err = none ∧
    FS.same srcEx (sync [] srcEx repEx ["s"] ["r"]).rep = true :=
  ⟨by decide, by decide, by decide,
    C1_convergence srcEx repEx ["s"] ["r"] (by decide) (by decide)
      (by decide)⟩

/-- C2: Idempotence — immediately after a successful pass, a second pass on
the unchanged source produces no log record, performs no filesystem write,
reports no error, and leaves the replica tree exactly as it was. -/
theorem C2_idempotence (src rep : FS) (sp rp : FsPath)
    (h1 : FS.wf src = true) (h2 : FS.wf rep = true)
    (h3 : (sync [] src rep sp rp).err = none) :
    sync [] src (sync [] src rep sp rp).rep sp rp =
      ⟨(sync [] src rep sp rp).rep, [], [], none⟩ := by
  obtain ⟨hwfO, hsame⟩ := sync_main src rep sp rp h1 h2 h3
  cases src with
  | file c =>
    rw [sync_eq_file (List.not_mem_nil _)] at h3
    simp at h3
  | dir ses =>
    exact sync_noop (.dir ses) _ sp rp h1 hwfO hsame rfl

theorem C2_idempotence_witness :
    (sync [] srcEx repEx ["s"] ["r"]).err = none ∧
    sync [] srcEx (sync [] srcEx repEx ["s"] ["r"]).rep ["s"] ["r"] =
      ⟨(sync [] srcEx repEx ["s"] ["r"]).rep, [], [], none⟩ :=
  ⟨by decide, C2_idempotence srcEx repEx ["s"] ["r"] (by decide) (by decide)
    (by decide)⟩

/-- C3: Minimality of copying — for a file name present in both listings,
a byte-identical file is never the subject of a `FileCopied` operation, and
when the pass completes without error the file is copied exactly when the
streamed content digests of the two files differ; the decision consults
only `calculate_md5` of the two files, never size or modification time
(the model carries neither). -/
theorem C3_minimality (ses res : List (String × FS)) (sp rp : FsPath)
    (name : String) (c d : Bytes)
    (hnd : nodupKeys (keys ses) = true)
    (hmem : (name, FS.file c) ∈ ses)
    (hf : findEntry res name = some (.file d)) :
    (calculate_md5 c = calculate_md5 d →
      Op.fileCopied (rp ++ [name]) ∉
        (sync [] (.dir ses) (.dir res) sp rp).log) ∧
    ((sync [] (.dir ses) (.dir res) sp rp).err = none →
      (Op.fileCopied (rp ++ [name]) ∈
          (sync [] (.dir ses) (.dir res) sp rp).log ↔
        calculate_md5 c ≠ calculate_md5 d)) := by
  obtain ⟨ha, hb⟩ := @syncItems_copy_iff sp rp ses res name c d hnd hmem hf
  cases hi : (syncItems [] ses res sp rp).err with
  | some e =>
    rw [sync_eq_dir_err (List.not_mem_nil _) (List.not_mem_nil _) hi]
    refine ⟨fun hmd => ha hmd, fun herr => ?_⟩
    simp at herr
  | none =>
    rw [sync_eq_dir_ok (List.not_mem_nil _) (List.not_mem_nil _) hi]
    simp only
    constructor
    · intro hmd hin
      rcases List.mem_append.mp hin with hin | hin
      · exact ha hmd hin
      · exact prune_no_copy hin
    · intro herr
      rw [List.mem_append]
      constructor
      · intro h
        rcases h with h | h
        · exact (hb hi).mp h
        · exact absurd h prune_no_copy
      · intro h
        exact Or.inl ((hb hi).mpr h)

theorem C3_minimality_witness :
    Op.fileCopied ["r", "a.txt"] ∉
      (sync [] (.dir sesEx) (.dir resEx) ["s"] ["r"]).log :=
  (C3_minimality sesEx resEx ["s"] ["r"] "a.txt"
    [104, 101, 108, 108, 111] [104, 101, 108, 108, 111]
    (by decide) (List.mem_cons_self _ _) rfl).1 (by decide)

/-- C4: New-entry non-pruning — pruning candidates come only from the
replica listing captured at the start of the pass, so a directory present
in the source but absent from the replica is deep-copied whole, appears in
the replica exactly as the source subtree afterwards, and the only logged
operation whose path lies under it is its single `DirectoryCreated`; in
particular no removal ever touches it. -/
theorem C4_new_dir (ses res : List (String × FS)) (sp rp : FsPath)
    (name : String) (ds : List (String × FS))
    (hnd : nodupKeys (keys ses) = true)
    (hmem : (name, FS.dir ds) ∈ ses)
    (hf : findEntry res name = none)
    (herr : (sync [] (.dir ses) (.dir res) sp rp).err = none) :
    FS.lookup (sync [] (.dir ses) (.dir res) sp rp).rep name =
      some (.dir ds) ∧
    ∀ op ∈ (sync [] (.dir ses) (.dir res) sp rp).log,
      (∃ t, Op.path op = rp ++ name :: t) →
      op = .dirCreated (rp ++ [name]) := by
  cases hi : (syncItems [] ses res sp rp).err with
  | some e =>
    rw [sync_eq_dir_err (List.not_mem_nil _) (List.not_mem_nil _) hi] at herr
    simp at herr
  | none =>
    rw [sync_eq_dir_ok (List.not_mem_nil _) (List.not_mem_nil _) hi]
      at herr ⊢
    simp only at herr ⊢
    obtain ⟨h1, h2⟩ := syncItems_newdir ses res name ds hnd hmem hf hi
    constructor
    · rw [FS.lookup,
        prune_frame (keys res) (keys ses) _ name
          (List.mem_map_of_mem Prod.fst hmem)]
      exact h1
    · intro op hop hpath
      rcases List.mem_append.mp hop with hop | hop
      · exact h2 op hop hpath
      · exfalso
        obtain ⟨m, hm, hns, hopf⟩ := prune_shape.1 op hop
        obtain ⟨t, ht⟩ := hpath
        have hmn : m = name := by
          rcases hopf with hopf | hopf <;>
          · rw [hopf] at ht
            simp only [Op.path] at ht
            exact (path_one_ne ht).1
        have hnk : name ∉ keys res := by
          intro hc
          obtain ⟨g, hg⟩ := findEntry_isSome.mpr hc
          rw [hf] at hg
          exact Option.noConfusion hg
        exact hnk (hmn ▸ hm)

theorem C4_new_dir_witness :
    FS.lookup (sync [] (.dir sesEx) (.dir resEx) ["s"] ["r"]).rep "sub" =
      some (.dir [("b.txt", .file [120])]) :=
  (C4_new_dir sesEx resEx ["s"] ["r"] "sub" [("b.txt", .file [120])]
    (by decide) (List.mem_cons_of_mem _ (List.mem_cons_self _ _))
    rfl (by decide)).1

/-- C5 (amended): Kind-mismatch handling — for a top-level name that is a
directory on one side and a non-directory on the other, the pass fails
with an error rather than silently deleting and recreating the replica
entry, and the mismatched replica entry is left unchanged; the error is an
OS-level read error raised while listing or hashing the mismatched object
(the code never raises the specification's proposed `TypeMismatchError`). -/
theorem C5_mismatch (ses res : List (String × FS)) (sp rp : FsPath)
    (name : String) (sEntry rEntry : FS)
    (hnd : nodupKeys (keys ses) = true)
    (hmem : (name, sEntry) ∈ ses)
    (hf : findEntry res name = some rEntry)
    (hkind : FS.isDir sEntry = true ∧ FS.isDir rEntry = false ∨
      FS.isDir sEntry = false ∧ FS.isDir rEntry = true) :
    (sync [] (.dir ses) (.dir res) sp rp).err ≠ none ∧
    FS.lookup (sync [] (.dir ses) (.dir res) sp rp).rep name =
      some rEntry := by
  obtain ⟨h1, h2⟩ :=
    @syncItems_mismatch sp rp ses res name sEntry rEntry hnd hmem hf hkind
  cases hi : (syncItems [] ses res sp rp).err with
  | none => exact absurd hi h1
  | some e =>
    rw [sync_eq_dir_err (List.not_mem_nil _) (List.not_mem_nil _) hi]
    exact ⟨by simp, h2⟩

/-- C5 counterexample: on a directory `x` in the source facing a file `x`
in the replica, the pass raises the model's read error (the
`NotADirectoryError` of `os.listdir` on a file), not a `TypeMismatchError`:
the claim's named error kind never occurs. -/
theorem C5_counterexample :
    (sync [] (.dir [("x", .dir [])]) (.dir [("x", .file [7])])
      ["s"] ["r"]).err = some (.readError ["r", "x"]) ∧
    ¬∃ p, (sync [] (.dir [("x", .dir [])]) (.dir [("x", .file [7])])
      ["s"] ["r"]).err = some (.typeMismatch p) := by
  refine ⟨rfl, ?_⟩
  rintro ⟨p, hp⟩
  rw [show (sync [] (.dir [("x", .dir [])]) (.dir [("x", .file [7])])
    ["s"] ["r"]).err = some (.readError ["r", "x"]) from rfl] at hp
  exact SyncError.noConfusion (Option.some.inj hp)

theorem C5_mismatch_witness :
    (sync [] (.dir [("x", .dir [])]) (.dir [("x", .file [7])])
      ["s"] ["r"]).err ≠ none ∧
    FS.lookup (sync [] (.dir [("x", .dir [])]) (.dir [("x", .file [7])])
      ["s"] ["r"]).rep "x" = some (.file [7]) :=
  C5_mismatch [("x", .dir [])] [("x", .file [7])] ["s"] ["r"] "x"
    (.dir []) (.file [7]) (by decide) (List.mem_cons_self _ _) rfl
    (Or.inl ⟨rfl, rfl⟩)

/-- C6: Abort-and-propagate error policy — with primitive failures
injected on the paths in `faults`: a pass that reports no error behaved
exactly like the fault-free pass (so no per-entry failure was caught and
silently skipped), and a pass that fails surfaces the error to the caller
having performed only an initial segment of the fault-free pass's logged
operations and filesystem writes (it aborted at the first failure, with no
retry producing extra writes). -/
theorem C6_error_policy (src rep : FS) (sp rp : FsPath)
    (faults : List FsPath) :
    ((sync faults src rep sp rp).err = none →
      sync faults src rep sp rp = sync [] src rep sp rp) ∧
    ((sync faults src rep sp rp).err ≠ none →
      initSeg (sync faults src rep sp rp).log (sync [] src rep sp rp).log ∧
      initSeg (sync faults src rep sp rp).writes
        (sync [] src rep sp rp).writes) := by
  rcases sync_ref src rep sp rp faults with he | ⟨h1, h2, h3⟩
  · exact ⟨fun _ => he, fun _ => he ▸ ⟨initSeg_refl _, initSeg_refl _⟩⟩
  · exact ⟨fun h0 => absurd h0 h1, fun _ => ⟨h2, h3⟩⟩

theorem C6_error_policy_witness :
    (sync [["s"]] srcEx repEx ["s"] ["r"]).err ≠ none ∧
    initSeg (sync [["s"]] srcEx repEx ["s"] ["r"]).log
      (sync [] srcEx repEx ["s"] ["r"]).log ∧
    initSeg (sync [["s"]] srcEx repEx ["s"] ["r"]).writes
      (sync [] srcEx repEx ["s"] ["r"]).writes :=
  ⟨by decide,
    (C6_error_policy srcEx repEx ["s"] ["r"] [["s"]]).2 (by decide)⟩

/-- C7: Deletion correctness — a top-level name present in the replica but
absent from the source before the pass is absent from the replica after a
successful pass, and exactly one removal operation was logged for it:
one `DirectoryRemoved` and no `FileRemoved` when it was a directory, one
`FileRemoved` and no `DirectoryRemoved` when it was a file. -/
theorem C7_deletion (ses res : List (String × FS)) (sp rp : FsPath)
    (n : String)
    (hwfS : FS.wf (.dir ses) = true) (hwfR : FS.wf (.dir res) = true)
    (hmemR : n ∈ keys res) (hmemS : n ∉ keys ses)
    (herr : (sync [] (.dir ses) (.dir res) sp rp).err = none) :
    FS.lookup (sync [] (.dir ses) (.dir res) sp rp).rep n = none ∧
    (∀ ds, findEntry res n = some (.dir ds) →
      (sync [] (.dir ses) (.dir res) sp rp).log.count
        (.dirRemoved (rp ++ [n])) = 1 ∧
      (sync [] (.dir ses) (.dir res) sp rp).log.count
        (.fileRemoved (rp ++ [n])) = 0) ∧
    (∀ d, findEntry res n = some (.file d) →
      (sync [] (.dir ses) (.dir res) sp rp).log.count
        (.fileRemoved (rp ++ [n])) = 1 ∧
      (sync [] (.dir ses) (.dir res) sp rp).log.count
        (.dirRemoved (rp ++ [n])) = 0) := by
  rw [wf_dir] at hwfS hwfR
  cases hi : (syncItems [] ses res sp rp).err with
  | some e =>
    rw [sync_eq_dir_err (List.not_mem_nil _) (List.not_mem_nil _) hi] at herr
    simp at herr
  | none =>
    rw [sync_eq_dir_ok (List.not_mem_nil _) (List.not_mem_nil _) hi]
      at herr ⊢
    simp only at herr ⊢
    obtain ⟨⟨hnd1, _⟩, _, _, _⟩ :=
      syncItems_main sp rp ses res (subOk_all ses) hwfS.1
        (wfList_iff.mp hwfS.2) hwfR.1 (wfList_iff.mp hwfR.2) hi
    have hframe : findEntry (syncItems [] ses res sp rp).entries n =
        findEntry res n := syncItems_frame ses res n hmemS
    have hzero : ∀ op : Op, Op.path op = rp ++ [n] →
        (syncItems [] ses res sp rp).log.count op = 0 := by
      intro op hp
      exact List.count_eq_zero.mpr
        (itemsShape_not_log syncItems_shape hmemS hp)
    obtain ⟨hca, hcb⟩ :=
      prune_count (keys res) (keys ses)
        (syncItems [] ses res sp rp).entries n hwfR.1 hmemR hmemS herr
    refine ⟨?_, ?_, ?_⟩
    · obtain ⟨_, _, hc, _, _⟩ :=
        prune_main rp (keys res) (keys ses)
          (syncItems [] ses res sp rp).entries hnd1 herr
      exact hc n hmemR hmemS
    · intro ds hd
      obtain ⟨h1, h2⟩ := hca ds (by rw [hframe]; exact hd)
      rw [List.count_append, List.count_append,
        hzero (Op.dirRemoved (rp ++ [n])) rfl,
        hzero (Op.fileRemoved (rp ++ [n])) rfl, h1, h2]
      exact ⟨rfl, rfl⟩
    · intro d hd
      obtain ⟨h1, h2⟩ := hcb d (by rw [hframe]; exact hd)
      rw [List.count_append, List.count_append,
        hzero (Op.fileRemoved (rp ++ [n])) rfl,
        hzero (Op.dirRemoved (rp ++ [n])) rfl, h1, h2]
      exact ⟨rfl, rfl⟩

theorem C7_deletion_witness :
    FS.lookup (sync [] (.dir sesEx) (.dir resEx) ["s"] ["r"]).rep
      "c.txt" = none ∧
    (sync [] (.dir sesEx) (.dir resEx) ["s"] ["r"]).log.count
      (.fileRemoved (["r"] ++ ["c.txt"])) = 1 ∧
    (sync [] (.dir sesEx) (.dir resEx) ["s"] ["r"]).log.count
      (.dirRemoved (["r"] ++ ["c.txt"])) = 0 := by
  obtain ⟨h1, _, h3⟩ := C7_deletion sesEx resEx ["s"] ["r"] "c.txt"
    (by decide) (by decide) (by decide) (by decide) (by decide)
  exact ⟨h1, h3 [111, 108, 100] rfl⟩

/-- C8: Source immutability (frame condition) — every filesystem write the
pass performs, on any input and with any injected faults, whether the pass
succeeds or fails, targets a path strictly below the replica root `rp`:
`sync_folders` joins every mutated path onto the replica argument, so
nothing under the source path is ever a write target. -/
theorem C8_frame (src rep : FS) (sp rp : FsPath) (faults : List FsPath)
    (w : Write) (hw : w ∈ (sync faults src rep sp rp).writes) :
    ∃ t, t ≠ [] ∧ Write.target w = rp ++ t := by
  obtain ⟨m, t', hp⟩ := (sync_shape src rep sp rp faults).2 w hw
  exact ⟨m :: t', List.cons_ne_nil _ _, hp⟩

theorem C8_frame_witness :
    ∃ t, t ≠ [] ∧
      Write.target (Write.wcopytree ["s", "sub"] ["r", "sub"]) =
        ["r"] ++ t :=
  C8_frame srcEx repEx ["s"] ["r"] []
    (.wcopytree ["s", "sub"] ["r", "sub"]) (by decide)

/-- C9: Example-scenario exactness — for source
`{a.txt = "hello", sub/b.txt = "x"}` and replica
`{a.txt = "hello", c.txt = "old"}`, one pass leaves the replica equal to
the source (`a.txt` untouched, `sub/b.txt` created with the copied tree,
`c.txt` removed) and logs exactly two operations, in order:
`DirectoryCreated replica/sub` (no individual operation for `b.txt`) and
`FileRemoved replica/c.txt`. -/
theorem C9_example :
    sync [] srcEx repEx ["source"] ["replica"] =
      ⟨.dir [("a.txt", .file [104, 101, 108, 108, 111]),
             ("sub", .dir [("b.txt", .file [120])])],
       [.dirCreated ["replica", "sub"], .fileRemoved ["replica", "c.txt"]],
       [.wcopytree ["source", "sub"] ["replica", "sub"],
        .wremove ["replica", "c.txt"]],
       none⟩ := rfl

/-- C10: Termination — `sync_folders` terminates on every pair of finite
trees because each recursive self-call descends into an immediate
subdirectory of the current source directory: with any fuel exceeding the
depth of the source tree, the fuel-indexed recursion completes (never
exhausts its budget) and computes exactly the total function `sync`. -/
theorem C10_termination (src rep : FS) (sp rp : FsPath)
    (faults : List FsPath) (fuel : Nat) (h : FS.depth src < fuel) :
    syncFuel fuel faults src rep sp rp =
      some (sync faults src rep sp rp) :=
  syncFuel_eq fuel src rep sp rp faults h

theorem C10_termination_witness :
    FS.depth srcEx < 3 ∧
    syncFuel 3 [] srcEx repEx ["s"] ["r"] =
      some (sync [] srcEx repEx ["s"] ["r"]) :=
  ⟨by decide, C10_termination srcEx repEx ["s"] ["r"] [] 3 (by decide)⟩

end FolderSync
